import Mathlib

/-!
Verification development for the planease-lambda conditions-processor.

The Python sources under src/conditions-processor/parsers are shallowly
embedded here:

- bcc_parse.py: the HTML adapter walks the bold runs following the
  APPROVAL CONDITIONS marker; each bold run is modelled by a BoldRun record
  carrying the cleaned soup-level data the Python code reads from it
  (its text, the surrounding table row, and whether the next table looks
  like a timing header).  The condition state machine, the obligation
  refiner (proof-of-fulfilment and inline-timing extraction, timing
  resolution) and the revision / prepared-by splitter are embedded as
  executable functions, with the regular expressions of the source
  translated to explicit character-list matchers (Python re semantics:
  leftmost match, greedy with backtracking, re.I as ASCII case folding,
  word boundaries for the backslash-b assertions).

- logan_parse.py: the PDF adapter is embedded from the line level on
  (PyMuPDF text extraction itself is an external collaborator): the line
  normaliser, the label field extractor, and the section / condition state
  machine.  The mutable condition dicts of the Python code are modelled by
  an arena of slots (creation order = slot index) so that the dict
  mutations through the condition index are exact; the final nested tree
  is materialised from the arena.

All definitions are executable; machine integers do not occur.  The word
character classes are the ASCII restriction of Python's.
-/

namespace PlanEase

/-- Whitespace class of Python's backslash-s (ASCII part). -/
def isPySpace (c : Char) : Bool :=
  c = ' ' || c = '\t' || c = '\n' || c = '\r' || c = '\x0b' || c = '\x0c'

/-- Word character class of Python's backslash-w (ASCII part). -/
def isWordCh (c : Char) : Bool :=
  c.isAlphanum || c = '_'

/-- Whitespace collapsing pass: pend records whether whitespace was seen
since the last emitted character. -/
def cleanGo : Bool → List Char → List Char
  | _, [] => []
  | pend, c :: cs =>
    if isPySpace c then cleanGo true cs
    else if pend then ' ' :: c :: cleanGo false cs
    else c :: cleanGo false cs

/-- Embedding of the helper named clean in both parsers:
strip, then collapse every whitespace run to a single space. -/
def cleanL (cs : List Char) : List Char :=
  cleanGo false (cs.dropWhile isPySpace)

/-- String-level wrapper of cleanL. -/
def clean (s : String) : String :=
  String.mk (cleanL s.data)

/-- ASCII lowercasing, the embedding of str.lower for our inputs. -/
def lowerStr (s : String) : String :=
  String.mk (s.data.map Char.toLower)

/-- Case-insensitive character comparison (re.I, ASCII). -/
def chEqI (a b : Char) : Bool :=
  a.toLower = b.toLower

/-- Case-insensitive prefix test: does cs start with pat (re.I)? -/
def startsWithI : List Char → List Char → Bool
  | _, [] => true
  | [], _ :: _ => false
  | c :: cs, p :: ps => chEqI c p && startsWithI cs ps

/-- Group-3 extraction for the tail of the BCC condition pattern, the part
reading backslash-s* close-paren? backslash-s* (.+)$ applied to a nonempty
remainder; returns the characters captured by the final group under
Python's greedy-with-backtracking order. -/
def tailGroup (r : List Char) : List Char :=
  let q := r.dropWhile isPySpace
  match q with
  | [] => [' ']
  | ')' :: q1 =>
    match q1.dropWhile isPySpace with
    | [] => if q1 = [] then [')'] else [' ']
    | q2 => q2
  | _ => q

/-- Embedding of the BCC condition bold-run pattern
caret (backslash-d+) (paren [a-z] paren)? backslash-s* close-paren?
backslash-s* (.+) dollar with re.I, from bcc_parse.py line 330.
Returns the three capture groups (digits, optional suffix with
parentheses, raw title). -/
def condMatchL (cs : List Char) : Option (List Char × List Char × List Char) :=
  let d := cs.takeWhile Char.isDigit
  let r := cs.dropWhile Char.isDigit
  if d = [] then none
  else if r = [] then
    if 2 ≤ d.length then some (d.dropLast, [], [d.getLast!]) else none
  else
    match r with
    | '(' :: c :: ')' :: r2 =>
      if c.isAlpha && r2 ≠ [] then some (d, ['(', c, ')'], tailGroup r2)
      else some (d, [], tailGroup r)
    | _ => some (d, [], tailGroup r)

/-- String-level wrapper of condMatchL. -/
def condMatch (s : String) : Option (String × String × String) :=
  (condMatchL s.data).map
    (fun g => (String.mk g.1, String.mk g.2.1, String.mk g.2.2))

/-- Structured fulfilment-proof requirement, the material dict of
bcc_parse.py. -/
structure Material where
  required : Bool
  description : String
  timing : String
deriving DecidableEq, Repr

/-- re.search scan for the pattern boundary Timing: backslash-s* (.+)
dollar with re.I and re.S (bcc_parse.py line 244): first position with a
word boundary before an ASCII case folded timing-colon occurrence that
still leaves at least one character after the colon.  Returns the text
before the match and the raw group-1 region after the colon (before the
leading whitespace of the group is consumed; callers clean it, which makes
the difference irrelevant).  The prevWord flag tracks whether the previous
character is a word character; acc holds the reversed scanned prefix. -/
def findTimingGo (prevWord : Bool) (acc : List Char) :
    List Char → Option (List Char × List Char)
  | [] => none
  | c :: cs =>
    if !prevWord && startsWithI (c :: cs) ['t','i','m','i','n','g',':']
        && (c :: cs).drop 7 ≠ [] then
      some (acc.reverse, (c :: cs).drop 7)
    else
      findTimingGo (isWordCh c) (c :: acc) cs

/-- Entry point of the timing-marker scan. -/
def findTimingSplit (cs : List Char) : Option (List Char × List Char) :=
  findTimingGo false [] cs

/-- Embedding of the helper extracting an inline Timing: phrase from the
end of a block (bcc_parse.py lines 236 to 250).  Returns the pair of the
text without the phrase and the phrase itself, both cleaned; when no
marker matches, the text is returned unchanged with an empty phrase. -/
def extract_inline_timing (cs : List Char) : List Char × List Char :=
  match findTimingSplit cs with
  | none => (cs, [])
  | some (pre, post) => (cleanL pre, cleanL post)

/-- re.search scan for boundary PROOF OF FULFILMENT boundary
backslash-s* (.+) dollar with re.I and re.S (bcc_parse.py line 261): the
marker occurrence needs a word boundary on both sides and at least one
character after it. -/
def findPofGo (prevWord : Bool) (acc : List Char) :
    List Char → Option (List Char × List Char)
  | [] => none
  | c :: cs =>
    if !prevWord
        && startsWithI (c :: cs)
          ['p','r','o','o','f',' ','o','f',' ','f','u','l','f','i','l','m','e','n','t']
        && (match (c :: cs).drop 19 with
            | [] => false
            | d :: _ => !isWordCh d) then
      some (acc.reverse, (c :: cs).drop 19)
    else
      findPofGo (isWordCh c) (c :: acc) cs

/-- Entry point of the fulfilment-proof marker scan. -/
def findPofSplit (cs : List Char) : Option (List Char × List Char) :=
  findPofGo false [] cs

/-- Embedding of the fulfilment-proof extractor (bcc_parse.py lines 253
to 275): everything after the marker becomes the material description,
with a nested Timing: phrase moved into the material timing; the marker
and its tail are removed from the description. -/
def extract_proof_of_fulfilment (cs : List Char) : List Char × Option Material :=
  match findPofSplit cs with
  | none => (cs, none)
  | some (pre, post) =>
    let pb := cleanL post
    let pr := extract_inline_timing pb
    (cleanL pre, some ⟨true, String.mk pr.1, String.mk pr.2⟩)

/-- Embedding of the timing resolution of bcc_parse.py lines 355 to 359:
the column value wins unless an inline phrase exists and the column value
is empty or the as-indicated placeholder, in which case the inline phrase
is promoted. -/
def resolveTiming (timingCol inlineTiming : String) : String × String :=
  if inlineTiming ≠ "" ∧ (lowerStr timingCol = "as indicated" ∨ timingCol = "")
  then (inlineTiming, "inline")
  else (timingCol, "column")

/-- Tail of each alternative of the revision pattern: backslash-s+ then
one or more of [A-Z0-9] (re.I) then a word boundary.  Given the characters
after the alternative's keyword and the keyword length, returns the total
matched length when the tail matches greedily with a boundary after it. -/
def revTail (after : List Char) (consumed : Nat) : Option Nat :=
  let sp := after.takeWhile isPySpace
  if sp = [] then none
  else
    let rest := after.dropWhile isPySpace
    let al := rest.takeWhile (fun c => c.isAlphanum)
    if al = [] then none
    else
      match rest.dropWhile (fun c => c.isAlphanum) with
      | [] => some (consumed + sp.length + al.length)
      | d :: _ => if isWordCh d then none else some (consumed + sp.length + al.length)

/-- One-position matcher for the alternation
Rev backslash-s+ [A-Z0-9]+ or Issue backslash-s+ [A-Z0-9]+ or CO
backslash-s+ Issue backslash-s+ [A-Z0-9]+ of bcc_parse.py line 178,
alternatives tried in source order; returns the matched length. -/
def matchRevAt (cs : List Char) : Option Nat :=
  if startsWithI cs ['r','e','v'] then revTail (cs.drop 3) 3
  else if startsWithI cs ['i','s','s','u','e'] then revTail (cs.drop 5) 5
  else if startsWithI cs ['c','o'] then
    let a := cs.drop 2
    let sp := a.takeWhile isPySpace
    if sp = [] then none
    else
      let b := a.dropWhile isPySpace
      if startsWithI b ['i','s','s','u','e'] then
        revTail (b.drop 5) (2 + sp.length + 5)
      else none
  else none

/-- re.search scan for the revision pattern: leftmost position with a word
boundary before it where the alternation matches; returns the matched
group characters. -/
def findRevGo (prevWord : Bool) : List Char → Option (List Char)
  | [] => none
  | c :: cs =>
    if !prevWord then
      match matchRevAt (c :: cs) with
      | some n => some ((c :: cs).take n)
      | none => findRevGo (isWordCh c) cs
    else findRevGo (isWordCh c) cs

/-- Embedding of the revision and prepared-by splitter of bcc_parse.py
lines 173 to 191: the revision is the first Rev / Issue / CO Issue token
found anywhere in the number field; prepared-by is the cleaned text left
of the first pipe character when it is nonempty and at most 60 characters
long. -/
def extract_revision_and_prepared_by (s : String) : String × String :=
  let rev :=
    match findRevGo false s.data with
    | none => ""
    | some g => clean (String.mk g)
  let preparedBy :=
    if s.data.contains '|' then
      let left := clean (String.mk (s.data.takeWhile (fun c => c ≠ '|')))
      if left ≠ "" ∧ left.length ≤ 60 then left else ""
    else ""
  (rev, preparedBy)

/-- The central condition entity of both parsers.  The Python code builds
nested dicts; parentNumber is an optional key that only the BCC parser
ever sets (on subconditions attached to an indexed parent), so it is an
Option here and none models the absent key. -/
inductive Cond : Type where
  | mk (number title description timing timingSource timingColumn timingInline : String)
       (material : Option Material) (parentNumber : Option String)
       (children : List Cond) : Cond
deriving Repr

/-- Number field of a condition. -/
def Cond.number : Cond → String
  | .mk n _ _ _ _ _ _ _ _ _ => n

/-- Title field of a condition. -/
def Cond.title : Cond → String
  | .mk _ t _ _ _ _ _ _ _ _ => t

/-- Description field of a condition. -/
def Cond.description : Cond → String
  | .mk _ _ d _ _ _ _ _ _ _ => d

/-- Resolved timing field of a condition. -/
def Cond.timing : Cond → String
  | .mk _ _ _ ti _ _ _ _ _ _ => ti

/-- Timing source tag of a condition. -/
def Cond.timingSource : Cond → String
  | .mk _ _ _ _ ts _ _ _ _ _ => ts

/-- Raw timing-column value of a condition. -/
def Cond.timingColumn : Cond → String
  | .mk _ _ _ _ _ tc _ _ _ _ => tc

/-- Raw inline-timing value of a condition. -/
def Cond.timingInline : Cond → String
  | .mk _ _ _ _ _ _ tii _ _ _ => tii

/-- Fulfilment-proof material of a condition. -/
def Cond.material : Cond → Option Material
  | .mk _ _ _ _ _ _ _ m _ _ => m

/-- Parent back-reference of a condition (only ever set by the BCC
parser). -/
def Cond.parentNumber : Cond → Option String
  | .mk _ _ _ _ _ _ _ _ p _ => p

/-- Children list of a condition. -/
def Cond.children : Cond → List Cond
  | .mk _ _ _ _ _ _ _ _ _ cs => cs

mutual

/-- Full-traversal node count of one condition: itself plus all nested
descendants, the walk of the count helper in logan_parse.py lines 518
to 522. -/
def condNodeCount : Cond → Nat
  | .mk _ _ _ _ _ _ _ _ _ cs => 1 + condListNodeCount cs

/-- Full-traversal node count of a condition list. -/
def condListNodeCount : List Cond → Nat
  | [] => 0
  | c :: cs => condNodeCount c + condListNodeCount cs

end

/-- A section: its title and its ordered top-level conditions. -/
abbrev Section := String × List Cond

/-- Full-traversal node count over a section list, the embedding of the
count helper of logan_parse.py lines 517 to 528. -/
def count_conditions : List Section → Nat
  | [] => 0
  | s :: ss => condListNodeCount s.2 + count_conditions ss

/-- Append a child to the children list of a condition. -/
def Cond.addChild : Cond → Cond → Cond
  | .mk n t d ti ts tc tii m p cs, child => .mk n t d ti ts tc tii m p (cs ++ [child])

/-- Append a child under the most recently created top-level condition of
the list whose number equals base (conditions are in creation order, so
the search prefers the rightmost occurrence).  Returns none when no
condition of the list carries that number. -/
def appendChildLast : List Cond → String → Cond → Option (List Cond)
  | [], _, _ => none
  | c :: cs, base, child =>
    match appendChildLast cs base child with
    | some cs2 => some (c :: cs2)
    | none =>
      if c.number = base then some (c.addChild child :: cs) else none

/-- Append a child under the most recently created top-level condition
with the given number across a section list (sections are in creation
order, so the search prefers the rightmost section). -/
def appendChildSections : List Section → String → Cond → Option (List Section)
  | [], _, _ => none
  | s :: ss, base, child =>
    match appendChildSections ss base child with
    | some ss2 => some (s :: ss2)
    | none =>
      match appendChildLast s.2 base child with
      | some l2 => some ((s.1, l2) :: ss)
      | none => none

namespace Bcc

/-- Data the BCC condition walk reads from the table row around a bold
run: the cell count of the row, the text of the first cell with the
leading bold header removed (the output of the helper of bcc_parse.py
lines 285 to 295), and the raw text of the second cell. -/
structure BccRow where
  numCells : Nat
  descExclBold : String
  timingCell : String
deriving Repr

/-- One bold run in document order after the APPROVAL CONDITIONS marker:
its text content, the table row that contains it (none when the bold has
no tr ancestor), and whether the next table after it contains the word
timing (the category-heading test of bcc_parse.py lines 278 to 283). -/
structure BoldRun where
  text : String
  row : Option BccRow
  nextTableTiming : Bool
deriving Repr

/-- Abstraction of a BCC document for the condition walk and the
application-details table: the two-column rows following the APPLICATION
DETAILS marker (none when the marker is absent) and the bold runs after
the APPROVAL CONDITIONS marker. -/
structure BccDoc where
  appDetailsRows : Option (List (String × String))
  bolds : List BoldRun

/-- State of the BCC condition walk of bcc_parse.py lines 298 to 398:
flushed sections, the open section title and conditions, and the running
condition counter.  The condition index of the Python code (base number
to most recent parent dict) is represented by searching done and cur from
the most recent end; the index only ever holds top-level suffix-free
conditions, whose numbers are pure digit strings, and every such condition
stays in cur or done in creation order, so the rightmost occurrence of the
base number is exactly the dict the index holds. -/
structure BccSt where
  done : List Section
  curTitle : String
  cur : List Cond
  counter : Nat

/-- Initial state of the walk. -/
def initSt : BccSt :=
  { done := [], curTitle := "General", cur := [], counter := 0 }

/-- The flush helper of bcc_parse.py lines 316 to 320: push the open
section when it has content. -/
def flush (st : BccSt) : BccSt :=
  if st.cur.isEmpty then st
  else { st with done := st.done ++ [(st.curTitle, st.cur)], cur := [] }

/-- Attach a subcondition under the indexed parent: the current section is
more recent than every flushed one, so it is searched first. -/
def attachSub (st : BccSt) (base : String) (child : Cond) : Option BccSt :=
  match appendChildLast st.cur base child with
  | some cur2 => some { st with cur := cur2 }
  | none =>
    match appendChildSections st.done base child with
    | some d2 => some { st with done := d2 }
    | none => none

/-- The condition dict built for a matched bold run (bcc_parse.py lines
333 to 371): the obligation refiner strips the fulfilment proof first and
the inline timing from the remainder, then the timing resolution runs on
the cleaned column value and the inline candidate.  The parent
back-reference is the optional parentNumber key, set by the caller only
when the subcondition attaches to an indexed parent. -/
def condOfRow (row : BccRow) (baseNum sfx titleRaw : String)
    (parent : Option String) : Cond :=
  let suffix := lowerStr sfx
  let number := baseNum ++ suffix
  let title := clean titleRaw
  let timingCol := clean row.timingCell
  let pofR := extract_proof_of_fulfilment row.descExclBold.data
  let itR := extract_inline_timing pofR.1
  let tr := resolveTiming timingCol (String.mk itR.2)
  Cond.mk number title (String.mk itR.1) tr.1 tr.2 timingCol
    (String.mk itR.2) pofR.2 parent []

/-- One step of the condition walk for one bold run, the loop body of
bcc_parse.py lines 322 to 395. -/
def bccStep (st : BccSt) (b : BoldRun) : BccSt :=
  let text := clean b.text
  if text = "" then st
  else
    match condMatch text with
    | some (baseNum, sfx, titleRaw) =>
      match b.row with
      | none => st
      | some row =>
        if row.numCells < 2 then st
        else if lowerStr sfx ≠ "" then
          match attachSub st baseNum (condOfRow row baseNum sfx titleRaw (some baseNum)) with
          | some st2 => { st2 with counter := st2.counter + 1 }
          | none =>
            { st with cur := st.cur ++ [condOfRow row baseNum sfx titleRaw none], counter := st.counter + 1 }
        else
          { st with cur := st.cur ++ [condOfRow row baseNum sfx titleRaw none], counter := st.counter + 1 }
    | none =>
      if b.nextTableTiming then
        { flush st with curTitle := text }
      else st

/-- The condition walk of bcc_parse.py lines 298 to 398 over all bold
runs, with the final flush. -/
def parse_conditions (bolds : List BoldRun) : List Section × Nat :=
  let st := flush (bolds.foldl bccStep initSt)
  (st.done, st.counter)

end Bcc

/-- Strip trailing colon characters, the embedding of rstrip with a colon
argument. -/
def rstripColon (s : String) : String :=
  String.mk (s.data.reverse.dropWhile (fun c => c = ':')).reverse

/-- Insertion-ordered dict update: overwriting an existing key keeps its
position, a new key is appended (Python dict semantics). -/
def dictInsert : List (String × String) → String → String → List (String × String)
  | [], k, v => [(k, v)]
  | (k0, v0) :: rest, k, v =>
    if k0 = k then (k0, v) :: rest
    else (k0, v0) :: dictInsert rest k v

/-- Dict lookup. -/
def dictGet (d : List (String × String)) (k : String) : Option String :=
  match d.find? (fun p => p.1 = k) with
  | some p => some p.2
  | none => none

/-- Case-insensitive substring scan: returns the text before the first
occurrence of the literal and the text after it. -/
def findSubIGo (lit : List Char) (acc : List Char) :
    List Char → Option (List Char × List Char)
  | [] => none
  | c :: cs =>
    if startsWithI (c :: cs) lit then some (acc.reverse, (c :: cs).drop lit.length)
    else findSubIGo lit (c :: acc) cs

/-- Entry point of the case-insensitive substring scan. -/
def findSubI (cs lit : List Char) : Option (List Char × List Char) :=
  findSubIGo lit [] cs

namespace Bcc

/-- Embedding of the two-column table reader of bcc_parse.py lines 22
to 34: label is the cleaned first cell with trailing colons stripped,
value the cleaned second cell; empty labels are skipped.  The input rows
carry the raw cell texts of each tr with at least two cells. -/
def parse_2col_table (rows : List (String × String)) : List (String × String) :=
  rows.foldl
    (fun acc r =>
      let label := rstripColon (clean r.1)
      let value := clean r.2
      if label = "" then acc else dictInsert acc label value)
    []

/-- The get helper of bcc_parse.py lines 49 to 54: first nonempty value
among the listed keys, else the empty string. -/
def rawGet (raw : List (String × String)) : List String → String
  | [] => ""
  | k :: ks =>
    match dictGet raw k with
    | some v => if v = "" then rawGet raw ks else v
    | none => rawGet raw ks

/-- Embedding of the quirk fix of bcc_parse.py lines 64 to 73: when the
council file reference value embeds the permit reference inline (pattern
caret (.*?) backslash-s* Permit Reference Number/s: backslash-s* (.+)
dollar with re.I) and no permit reference was found, split it. -/
def permitQuirk (councilRef permitRefs : String) : String × String :=
  if councilRef ≠ "" ∧ (findSubI (lowerStr councilRef).data
      ("permit reference").data ≠ none) ∧ permitRefs = "" then
    match findSubI councilRef.data ("permit reference number/s:").data with
    | some (pre, post) =>
      if post ≠ [] then (clean (String.mk pre), clean (String.mk post))
      else (councilRef, permitRefs)
    | none => (councilRef, permitRefs)
  else (councilRef, permitRefs)

/-- Embedding of the application-details extractor of bcc_parse.py lines
41 to 83.  When the APPLICATION DETAILS marker is absent the Python code
returns the empty dict (no keys at all); otherwise a dict with the seven
header keys, absent fields as empty strings. -/
def parse_application_details (t : Option (List (String × String))) :
    List (String × String) :=
  match t with
  | none => []
  | some rows =>
    let raw := parse_2col_table rows
    let address := rawGet raw [("Address of Site")]
    let rpd := rawGet raw [("Real Property Description of Site")]
    let aspects := rawGet raw [("Aspects of development and type of approval")]
    let councilRef0 := rawGet raw [("Council File Reference")]
    let permitRefs0 := rawGet raw [("Permit Reference Number/s"), ("Permit Reference Numbers")]
    let status := rawGet raw [("Package Status")]
    let generated := rawGet raw [("Package Generated")]
    let q := permitQuirk councilRef0 permitRefs0
    [("addressOfSite", address),
     ("realPropertyDescriptionOfSite", rpd),
     ("aspectsOfDevelopmentAndTypeOfApproval", aspects),
     ("councilFileReference", q.1),
     ("permitReferenceNumbers", q.2),
     ("packageStatus", status),
     ("packageGenerated", generated)]

/-- The claim-relevant projection of the BCC result record of
bcc_parse.py lines 414 to 425. -/
structure BccPackage where
  applicationDetails : List (String × String)
  sections : List Section
  numberOfConditions : Nat

/-- Embedding of the public BCC entry point (bcc_parse.py lines 405 to
425) on the claim-relevant fields: application details, the condition
section tree and the summary counter. -/
def parse_bcc_conditions_html (doc : BccDoc) : BccPackage :=
  let pc := parse_conditions doc.bolds
  { applicationDetails := parse_application_details doc.appDetailsRows,
    sections := pc.1,
    numberOfConditions := pc.2 }

end Bcc

namespace Logan

/-- Character class [A-Z backslash-s ampersand slash hyphen] of the Logan
section patterns. -/
def isSecClassCh (c : Char) : Bool :=
  c.isUpper || isPySpace c || c = '&' || c = '/' || c = '-'

/-- Embedding of SECTION_LINE_RE, the pattern
caret (backslash-d+) dot backslash-s+ ([A-Z][A-Z whitespace ampersand slash hyphen]+)
backslash-s* dollar of logan_parse.py line 75; returns the two groups
(the greedy character class absorbs any trailing whitespace, so group two
is the whole remainder). -/
def sectionLineM (s : String) : Option (String × String) :=
  let cs := s.data
  let d := cs.takeWhile Char.isDigit
  if d.isEmpty then none
  else
    match cs.drop d.length with
    | '.' :: r =>
      let sp := r.takeWhile isPySpace
      if sp.isEmpty then none
      else
        match r.drop sp.length with
        | c0 :: rest =>
          if c0.isUpper ∧ ¬rest.isEmpty ∧ rest.all isSecClassCh then
            some (String.mk d, String.mk (c0 :: rest))
          else none
        | [] => none
    | _ => none

/-- Embedding of SECTION_NUM_ONLY_RE, the pattern
caret (backslash-d+) dot backslash-s* dollar of logan_parse.py line 79. -/
def sectionNumOnlyM (s : String) : Option String :=
  let cs := s.data
  let d := cs.takeWhile Char.isDigit
  if d.isEmpty then none
  else
    match cs.drop d.length with
    | '.' :: r => if r.all isPySpace then some (String.mk d) else none
    | _ => none

/-- Embedding of UPPER_TITLE_RE, the pattern
caret [A-Z][A-Z whitespace ampersand slash hyphen]{2,} dollar of logan_parse.py line 80. -/
def upperTitleM (s : String) : Bool :=
  match s.data with
  | c0 :: rest => c0.isUpper && 2 ≤ rest.length && rest.all isSecClassCh
  | [] => false

/-- Dotted-number continuation of the condition patterns: acc already
holds the leading digits and at least one dot group; consume further
(dot digits) groups greedily, then require a final dot followed by at
least one whitespace character; returns the number group and the
remainder after that whitespace (shorter digit runs can never rescue a
failed parse because the next pattern element is a literal dot).  The
fuel is seeded with the length of the scanned characters; every step
consumes at least one character, so it never runs out. -/
def condSegsGo : Nat → List Char → List Char → Option (List Char × List Char)
  | 0, _, _ => none
  | Nat.succ fuel, acc, cs =>
    match cs with
    | '.' :: rest =>
      let d := rest.takeWhile Char.isDigit
      if d.isEmpty then
        let sp := rest.takeWhile isPySpace
        if sp.isEmpty then none else some (acc, rest.drop sp.length)
      else
        condSegsGo fuel (acc ++ '.' :: d) (rest.drop d.length)
    | _ => none

/-- Embedding of COND_INLINE_RE, the pattern
caret (backslash-d+(?:dot backslash-d+)+) dot backslash-s+ (.*) dollar of
logan_parse.py line 83; returns the number and body groups. -/
def condInlineM (s : String) : Option (String × String) :=
  let cs := s.data
  let d1 := cs.takeWhile Char.isDigit
  if d1.isEmpty then none
  else
    match cs.drop d1.length with
    | '.' :: rest =>
      let d := rest.takeWhile Char.isDigit
      if d.isEmpty then none
      else
        match condSegsGo cs.length (d1 ++ '.' :: d) (rest.drop d.length) with
        | some (num, r2) => some (String.mk num, String.mk r2)
        | none => none
    | _ => none

/-- Dotted-number continuation of the number-only pattern: like
condSegsGo but the final dot must be followed by whitespace only. -/
def condNumSegsGo : Nat → List Char → List Char → Option (List Char)
  | 0, _, _ => none
  | Nat.succ fuel, acc, cs =>
    match cs with
    | '.' :: rest =>
      let d := rest.takeWhile Char.isDigit
      if d.isEmpty then
        if rest.all isPySpace then some acc else none
      else
        condNumSegsGo fuel (acc ++ '.' :: d) (rest.drop d.length)
    | _ => none

/-- Embedding of COND_NUM_ONLY_RE, the pattern
caret (backslash-d+(?:dot backslash-d+)+) dot backslash-s* dollar of
logan_parse.py line 86. -/
def condNumOnlyM (s : String) : Option String :=
  let cs := s.data
  let d1 := cs.takeWhile Char.isDigit
  if d1.isEmpty then none
  else
    match cs.drop d1.length with
    | '.' :: rest =>
      let d := rest.takeWhile Char.isDigit
      if d.isEmpty then none
      else
        match condNumSegsGo cs.length (d1 ++ '.' :: d) (rest.drop d.length) with
        | some num => some (String.mk num)
        | none => none
    | _ => none

/-- Word-boundary test after a matched literal: lastIsWord is the word
status of the last matched character, rest the remaining characters; at
the end of input the position is a boundary exactly when the last
character is a word character, otherwise exactly when word status
changes. -/
def boundaryAfterOk (lastIsWord : Bool) (rest : List Char) : Bool :=
  match rest with
  | [] => lastIsWord
  | d :: _ => lastIsWord != isWordCh d

/-- Anchored case-insensitive literal prefix followed by a word boundary
(the caret literal backslash-b shape of the note and advice patterns). -/
def prefixIWithB (cs : List Char) (pat : String) : Bool :=
  startsWithI cs pat.data &&
    boundaryAfterOk (isWordCh pat.data.getLast!) (cs.drop pat.length)

/-- Embedding of NOTE_START_RE of logan_parse.py lines 89 to 92: the
alternatives have pairwise distinct first letters, so the alternation is
the disjunction of the individually bounded prefixes.  Note that for the
alternatives ending in a colon the following word boundary requires a
word character directly after the colon (re semantics), so a note line
with a space after the colon does not match. -/
def noteStartM (s : String) : Bool :=
  prefixIWithB s.data ("This condition is imposed under") ||
  prefixIWithB s.data ("Further Advice:") ||
  prefixIWithB s.data ("Advice Note:") ||
  prefixIWithB s.data ("Note:")

/-- Embedding of FURTHER_ADVICE_RE of logan_parse.py line 98. -/
def furtherAdviceM (s : String) : Bool :=
  prefixIWithB s.data ("FURTHER ADVICE")

/-- Embedding of FURTHER_ADVICE_TO_APPLICANT_RE of logan_parse.py
line 99. -/
def furtherAdviceToApplicantM (s : String) : Bool :=
  prefixIWithB s.data ("FURTHER ADVICE TO THE APPLICANT")

/-- The stop test of the condition loop (logan_parse.py line 456). -/
def stopMatch (s : String) : Bool :=
  furtherAdviceToApplicantM s || furtherAdviceM s

/-- Greedy-with-backtracking search for the largest class-run cut with a
word boundary after it: revRun is the reversed candidate run, aft the
characters after it; returns the kept length. -/
def maxBK : List Char → List Char → Option Nat
  | [], _ => none
  | l :: rev2, aft =>
    if boundaryAfterOk (isWordCh l) aft then some (rev2.length + 1)
    else maxBK rev2 (l :: aft)

/-- One-position matcher for group two of the embedded-section pattern
backslash-b backslash-d+ dot backslash-s+ [A-Z][A-Z whitespace ampersand slash hyphen]+
backslash-b of the normaliser (logan_parse.py line 116); returns the
matched group and the remaining suffix. -/
def tryInlineSecAt (cs : List Char) : Option (List Char × List Char) :=
  let d := cs.takeWhile Char.isDigit
  if d.isEmpty then none
  else
    match cs.drop d.length with
    | '.' :: r =>
      let sp := r.takeWhile isPySpace
      if sp.isEmpty then none
      else
        match r.drop sp.length with
        | c0 :: rest =>
          if c0.isUpper then
            let run := rest.takeWhile isSecClassCh
            let tl := rest.drop run.length
            match maxBK run.reverse tl with
            | some k => some (d ++ '.' :: sp ++ c0 :: run.take k, run.drop k ++ tl)
            | none => none
          else none
        | [] => none
    | _ => none

/-- Lazy-prefix scan of the embedded-section pattern: earliest start
position with a word boundary before it where the marker group matches;
returns the three groups (prefix, marker, suffix). -/
def findInlineSecGo (prevW : Bool) (acc : List Char) :
    List Char → Option (List Char × List Char × List Char)
  | [] => none
  | c :: cs =>
    if !prevW then
      match tryInlineSecAt (c :: cs) with
      | some (g2, g3) => some (acc.reverse, g2, g3)
      | none => findInlineSecGo (isWordCh c) (c :: acc) cs
    else findInlineSecGo (isWordCh c) (c :: acc) cs

/-- Entry point of the embedded-section scan. -/
def findInlineSec (cs : List Char) : Option (List Char × List Char × List Char) :=
  findInlineSecGo false [] cs

/-- Embedding of the next-meaningful-line helper of logan_parse.py lines
25 to 32 applied to a list suffix. -/
def next_meaningful : List String → String
  | [] => ""
  | l :: ls =>
    let t := clean l
    if t = "" then next_meaningful ls else t

/-- Embedding of the line normaliser of logan_parse.py lines 106 to 150:
merge a number-only line with a following all-uppercase title (advancing
by exactly two raw lines), split a line with an embedded section marker
into up to three lines, and pass everything else through; blank lines
are dropped. -/
def normaliseGo : Nat → List String → List String
  | 0, _ => []
  | _, [] => []
  | Nat.succ fuel, l0 :: ls =>
    let l := clean l0
    if l = "" then normaliseGo fuel ls
    else
      let merged : Option String :=
        match sectionNumOnlyM l with
        | some n =>
          let nxt := next_meaningful ls
          if nxt ≠ "" ∧ upperTitleM (clean nxt) then
            some (n ++ ". " ++ clean nxt)
          else none
        | none => none
      match merged with
      | some m => m :: normaliseGo fuel ls.tail
      | none =>
        match findInlineSec l.data with
        | some (a, b, c) =>
          if sectionLineM (clean (String.mk b)) ≠ none then
            (if clean (String.mk a) = "" then [] else [clean (String.mk a)]) ++
            [clean (String.mk b)] ++
            (if clean (String.mk c) = "" then [] else [clean (String.mk c)]) ++
            normaliseGo fuel ls
          else l :: normaliseGo fuel ls
        | none => l :: normaliseGo fuel ls

/-- Entry point of the normaliser: the fuel is the line count, and every
step consumes at least one line, so it never runs out. -/
def normalise_lines (ls : List String) : List String :=
  normaliseGo ls.length ls

/-- Characters after the first colon of a line. -/
def afterColon (cs : List Char) : List Char :=
  (cs.dropWhile (fun c => c ≠ ':')).drop 1

/-- Embedding of the label field extractor of logan_parse.py lines 35 to
67.  A label pattern is abstracted as a matcher returning none when the
cleaned line does not match and otherwise the effective group-1 value
(already the empty string when the pattern has no group or the group did
not capture, which the Python code treats the same way through its
lastindex and truthiness checks).  The scan window counts raw lines,
blanks included; the next-meaningful fallback looks beyond the window. -/
def find_value_after_label : List String → (String → Option String) → Nat → String
  | _, _, 0 => ""
  | [], _, _ => ""
  | l :: ls, m, Nat.succ k =>
    let line := clean l
    if line = "" then find_value_after_label ls m k
    else
      match m line with
      | none => find_value_after_label ls m k
      | some g =>
        let val := clean g
        if val ≠ "" then val
        else if line.data.contains ':' then
          let after := clean (String.mk (afterColon line.data))
          if after ≠ "" then after else clean (next_meaningful ls)
        else clean (next_meaningful ls)

/-- Tail of the Logan label patterns: backslash-s* colon? backslash-s*
then the value group. -/
def labelTail (rest : List Char) : List Char :=
  let a := rest.dropWhile isPySpace
  let b := match a with
    | ':' :: t => t
    | _ => a
  b.dropWhile isPySpace

/-- Matcher for caret APPLICANT backslash-s* colon? backslash-s* (.*)
dollar with re.I (logan_parse.py line 185). -/
def applicantM (s : String) : Option String :=
  if startsWithI s.data ("APPLICANT").data then
    some (String.mk (labelTail (s.data.drop 9)))
  else none

/-- Shared shape of the two-word label patterns: first word,
backslash-s+, second word, then the label tail and the value group. -/
def twoWordLabelM (w1 w2 : String) (s : String) : Option String :=
  if startsWithI s.data w1.data then
    let a := s.data.drop w1.length
    let sp := a.takeWhile isPySpace
    if sp.isEmpty then none
    else
      let b := a.drop sp.length
      if startsWithI b w2.data then
        some (String.mk (labelTail (b.drop w2.length)))
      else none
  else none

/-- Matcher for caret APPLICATION backslash-s+ NUMBER ... (line 188). -/
def applicationNumberM (s : String) : Option String :=
  twoWordLabelM ("APPLICATION") ("NUMBER") s

/-- Matcher for caret Officer backslash-s+ Name ... (line 195). -/
def officerNameM (s : String) : Option String :=
  twoWordLabelM ("Officer") ("Name") s

/-- Matcher for caret Contact backslash-s+ Number ... (line 198). -/
def contactNumberM (s : String) : Option String :=
  twoWordLabelM ("Contact") ("Number") s

/-- Matcher for caret Document backslash-s+ Number ... (line 201). -/
def documentNumberM (s : String) : Option String :=
  twoWordLabelM ("Document") ("Number") s

/-- Matcher for caret Street backslash-s+ Address ... (line 205). -/
def streetAddressM (s : String) : Option String :=
  twoWordLabelM ("Street") ("Address") s

/-- Matcher for caret Real backslash-s+ Property backslash-s+
Description ... (line 208). -/
def realPropertyM (s : String) : Option String :=
  if startsWithI s.data ("Real").data then
    let a := s.data.drop 4
    let sp := a.takeWhile isPySpace
    if sp.isEmpty then none
    else
      let b := a.drop sp.length
      if startsWithI b ("Property").data then
        let c := b.drop 8
        let sp2 := c.takeWhile isPySpace
        if sp2.isEmpty then none
        else
          let d := c.drop sp2.length
          if startsWithI d ("Description").data then
            some (String.mk (labelTail (d.drop 11)))
          else none
      else none
  else none

/-- Core of the TYPE ampersand DESCRIPTION label: TYPE backslash-s*
ampersand backslash-s* DESCRIPTION with re.I; returns the matched length
(the first alternative of the pattern of logan_parse.py line 191 covers
the second, so this is the alternation).  -/
def typeDescCore (cs : List Char) : Option Nat :=
  if startsWithI cs ("TYPE").data then
    let a := cs.drop 4
    let sp1 := a.takeWhile isPySpace
    match a.drop sp1.length with
    | '&' :: b =>
      let sp2 := b.takeWhile isPySpace
      if startsWithI (b.drop sp2.length) ("DESCRIPTION").data then
        some (4 + sp1.length + 1 + sp2.length + 11)
      else none
    | _ => none
  else none

/-- Matcher for the TYPE ampersand DESCRIPTION pattern of logan_parse.py
line 191: group 1 of that pattern is the label alternation itself, so the
effective group-1 value is the matched label text, never the value after
it (the Python code then repairs this with the fallback of lines 213 to
219). -/
def typeDescM (s : String) : Option String :=
  match typeDescCore s.data with
  | some n => some (String.mk (s.data.take n))
  | none => none

/-- re.search of the TYPE ampersand DESCRIPTION core anywhere in a raw
line (the fallback of logan_parse.py line 216). -/
def typeDescSearch : List Char → Bool
  | [] => false
  | c :: cs =>
    match typeDescCore (c :: cs) with
    | some _ => true
    | none => typeDescSearch cs

/-- The fallback loop of logan_parse.py lines 213 to 219: when the
extracted type description still starts with the word type, take the
cleaned text after the colon of the first window line containing the
label anywhere. -/
def typeDescFix (lines : List String) (typeDesc : String) : String :=
  if (lowerStr typeDesc).data.take 4 = ("type").data then
    typeDescFixGo (lines.take 120) typeDesc
  else typeDesc
where
  typeDescFixGo : List String → String → String
    | [], td => td
    | ln :: rest, td =>
      if typeDescSearch ln.data then
        if ln.data.contains ':' then clean (String.mk (afterColon ln.data))
        else td
      else typeDescFixGo rest td

/-- Embedding of the Logan application-details extractor of
logan_parse.py lines 174 to 248, restricted to the applicationDetails
mapping it returns (keys and order of the dict literal of lines 233 to
246). -/
def extract_logan_application_details (lines : List String) :
    List (String × String) :=
  let applicant := find_value_after_label lines applicantM 120
  let appNo := find_value_after_label lines applicationNumberM 120
  let typeDesc0 := find_value_after_label lines typeDescM 120
  let officerName := find_value_after_label lines officerNameM 120
  let contactNumber := find_value_after_label lines contactNumberM 120
  let documentNumber := find_value_after_label lines documentNumberM 120
  let streetAddress := find_value_after_label lines streetAddressM 120
  let realProp := find_value_after_label lines realPropertyM 120
  let typeDesc := typeDescFix lines typeDesc0
  [("addressOfSite", streetAddress),
   ("realPropertyDescriptionOfSite", realProp),
   ("aspectsOfDevelopmentAndTypeOfApproval", typeDesc),
   ("councilFileReference", appNo),
   ("permitReferenceNumbers", documentNumber),
   ("packageStatus", ""),
   ("packageGenerated", ""),
   ("applicant", applicant),
   ("officerName", officerName),
   ("contactNumber", contactNumber),
   ("documentNumber", documentNumber)]

/-- One arena slot: the scalar fields of a Logan condition dict as
created by the helper of logan_parse.py lines 388 to 399, with children
as arena indices (the dict mutations of the Python code through the
condition index become slot updates). -/
structure CondSlot where
  number : String
  title : String
  description : String
  timing : String
  timingSource : String
  timingColumn : String
  timingInline : String
  material : Option Material
  children : List Nat
deriving Repr

/-- The slot a new condition starts from (logan_parse.py lines 388 to
399). -/
def new_condition (num title desc : String) : CondSlot :=
  { number := clean num, title := clean title, description := clean desc,
    timing := "", timingSource := "", timingColumn := "", timingInline := "",
    material := none, children := [] }

/-- Embedding of the safe join helper of logan_parse.py lines 15 to 22. -/
def safe_join (a b : String) : String :=
  let a2 := clean a
  let b2 := clean b
  if a2 = "" then b2
  else if b2 = "" then a2
  else clean (a2 ++ " " ++ b2)

/-- State of the Logan condition walk of logan_parse.py lines 428 to 506.
The two nested loops of the source are flattened into one pass: active
holds the slot currently receiving continuation lines (the inner loops
append to it until the next marker line), stopped records that the
further-advice stop fired at the top level, seenRev is the reversed list
of the cleaned nonblank lines already passed (the lookback window of the
title helper of lines 402 to 425, which skips blank lines anyway), and
index is the condition index dict with the most recent binding first. -/
structure LoganSt where
  slots : List CondSlot
  sections : List (String × List Nat)
  index : List (String × Nat)
  active : Option Nat
  stopped : Bool
  seenRev : List String

/-- Initial state of the walk. -/
def initSt : LoganSt :=
  { slots := [], sections := [], index := [], active := none,
    stopped := false, seenRev := [] }

/-- Embedding of the previous-topic-title lookback of logan_parse.py
lines 402 to 425 over the reversed history of cleaned nonblank lines. -/
def prev_topic_title : List String → String
  | [] => ""
  | t :: rest =>
    if sectionLineM t ≠ none then prev_topic_title rest
    else if condInlineM t ≠ none ∨ condNumOnlyM t ≠ none then prev_topic_title rest
    else if noteStartM t then prev_topic_title rest
    else if (match t.data with | c :: _ => c.isDigit | [] => false) then
      prev_topic_title rest
    else if 120 < t.length ∧ (t.data.getLast? = some '.' ∨ t.data.getLast? = some ';') then
      prev_topic_title rest
    else t

/-! Splitting a number on dots, the embedding of the Python split and
join pair of the attach helper. -/

/-- Accumulator pass of the dot split; cur holds the reversed current
part. -/
def splitOnDotGo (cur : List Char) : List Char → List (List Char)
  | [] => [cur.reverse]
  | c :: cs =>
    if c = '.' then cur.reverse :: splitOnDotGo [] cs
    else splitOnDotGo (c :: cur) cs

/-- Split a character list on dots (Python str.split with a dot). -/
def splitOnDot (cs : List Char) : List (List Char) :=
  splitOnDotGo [] cs

/-- Join parts with dots (Python str.join with a dot). -/
def joinDots : List (List Char) → List Char
  | [] => []
  | [x] => x
  | x :: xs => x ++ '.' :: joinDots xs

/-- The dotted parent of a number: drop the last dot-separated part and
rejoin, the embedding of the join-split-slice expression of
logan_parse.py line 441. -/
def parentOf (num : String) : String :=
  String.mk (joinDots ((splitOnDot num.data).dropLast))

theorem splitOnDotGo_ne_nil (cur cs : List Char) : splitOnDotGo cur cs ≠ [] := by
  induction cs generalizing cur with
  | nil => simp [splitOnDotGo]
  | cons c cs2 ih =>
    unfold splitOnDotGo
    by_cases hc : c = '.'
    · simp [hc]
    · simp only [hc, if_false]
      exact ih _

theorem joinDots_splitOnDotGo (cur cs : List Char) :
    joinDots (splitOnDotGo cur cs) = cur.reverse ++ cs := by
  induction cs generalizing cur with
  | nil => simp [splitOnDotGo, joinDots]
  | cons c cs2 ih =>
    unfold splitOnDotGo
    by_cases hc : c = '.'
    · subst hc
      simp only [if_true]
      have hne := splitOnDotGo_ne_nil ([] : List Char) cs2
      cases hsp : splitOnDotGo ([] : List Char) cs2 with
      | nil => exact absurd hsp hne
      | cons p ps =>
        have h2 := ih ([] : List Char)
        rw [hsp] at h2
        simp only [List.reverse_nil, List.nil_append] at h2
        simp only [joinDots]
        cases ps with
        | nil => simp only [joinDots] at h2; simp [h2, joinDots]
        | cons q qs => simp [joinDots] at h2 ⊢; simp [h2]
    · simp only [hc, if_false]
      rw [ih (c :: cur)]
      simp

theorem joinDots_append_last (xs : List (List Char)) (y : List Char)
    (hxs : xs ≠ []) : joinDots (xs ++ [y]) = joinDots xs ++ '.' :: y := by
  induction xs with
  | nil => exact absurd rfl hxs
  | cons x xs2 ih =>
    cases xs2 with
    | nil => simp [joinDots]
    | cons x2 xs3 =>
      have h2 := ih (by simp)
      have e1 : (x :: x2 :: xs3) ++ [y] = x :: x2 :: (xs3 ++ [y]) := rfl
      rw [e1]
      rw [show joinDots (x :: x2 :: (xs3 ++ [y])) =
        x ++ '.' :: joinDots (x2 :: (xs3 ++ [y])) from rfl]
      rw [show joinDots (x :: x2 :: xs3) =
        x ++ '.' :: joinDots (x2 :: xs3) from rfl]
      rw [show joinDots (x2 :: (xs3 ++ [y])) =
        joinDots (x2 :: xs3) ++ '.' :: y from h2]
      simp

theorem splitOnDotGo_two_parts (cs : List Char) :
    ∀ (cur : List Char), '.' ∈ cs → 2 ≤ (splitOnDotGo cur cs).length := by
  induction cs with
  | nil => intro cur h; simp at h
  | cons c cs2 ih =>
    intro cur h
    unfold splitOnDotGo
    by_cases hc : c = '.'
    · simp only [hc, if_true, List.length_cons]
      have := List.length_pos.mpr (splitOnDotGo_ne_nil ([] : List Char) cs2)
      omega
    · simp only [hc, if_false]
      have hm : '.' ∈ cs2 := by
        rcases List.mem_cons.mp h with h2 | h2
        · exact absurd h2.symm hc
        · exact h2
      exact ih _ hm

/-- The dotted parent of a number with a dot is strictly shorter, so it
is never the number itself. -/
theorem parentOf_ne (num : String) (h : num.data.contains '.') :
    parentOf num ≠ num := by
  have hmem : '.' ∈ num.data := by simpa using h
  have h2 : 2 ≤ (splitOnDot num.data).length :=
    splitOnDotGo_two_parts num.data [] hmem
  have hid : joinDots (splitOnDot num.data) = num.data := by
    simpa [splitOnDot] using joinDots_splitOnDotGo [] num.data
  have hne : splitOnDot num.data ≠ [] := splitOnDotGo_ne_nil _ _
  have hsplit := List.dropLast_append_getLast hne
  have hdne : (splitOnDot num.data).dropLast ≠ [] := by
    intro hx
    have h3 := List.length_dropLast (splitOnDot num.data)
    rw [hx] at h3
    simp only [List.length_nil] at h3
    omega
  have hj : joinDots (splitOnDot num.data) =
      joinDots ((splitOnDot num.data).dropLast) ++
        '.' :: (splitOnDot num.data).getLast hne := by
    conv_lhs => rw [← hsplit]
    exact joinDots_append_last _ _ hdne
  intro hcontra
  have hdata : (parentOf num).data = num.data := congrArg String.data hcontra
  unfold parentOf at hdata
  simp only at hdata
  have hlen : num.data.length =
      (joinDots ((splitOnDot num.data).dropLast)).length + 1 +
        ((splitOnDot num.data).getLast hne).length := by
    conv_lhs => rw [← hid, hj]
    simp [List.length_append]
    omega
  rw [hdata] at hlen
  omega

/-- The ensure-section helper of logan_parse.py lines 433 to 436: open a
new section and make it current (the current section is always the last
one). -/
def ensureSection (st : LoganSt) (title : String) : LoganSt :=
  { st with sections := st.sections ++ [(clean title, [])] }

/-- Lookup in the condition index (most recent binding first, Python
dict overwrite semantics). -/
def lookupIndex (ix : List (String × Nat)) (k : String) : Option Nat :=
  match ix.find? (fun p => p.1 = k) with
  | some p => some p.2
  | none => none

/-- Append a child index to the children of slot p. -/
def slotAddChild (slots : List CondSlot) (p n : Nat) : List CondSlot :=
  match slots[p]? with
  | some s => slots.set p { s with children := s.children ++ [n] }
  | none => slots

/-- Append a condition index to the current (last) section. -/
def appendToLastSection (st : LoganSt) (n : Nat) : LoganSt :=
  match st.sections.getLast? with
  | none => st
  | some sec =>
    { st with sections := st.sections.dropLast ++ [(sec.1, sec.2 ++ [n])] }

/-- Embedding of the attach helper of logan_parse.py lines 438 to 447:
when the number is dotted and the dotted parent is indexed, the condition
becomes a child of the indexed parent; otherwise it is appended to the
current section as a top-level entry (opening an UNSORTED section if none
is open yet). -/
def attach_condition (st : LoganSt) (n : Nat) (num : String) : LoganSt :=
  let viaParent : Option LoganSt :=
    if num.data.contains '.' then
      match lookupIndex st.index (parentOf num) with
      | some p => some { st with slots := slotAddChild st.slots p n }
      | none => none
    else none
  match viaParent with
  | some st2 => st2
  | none =>
    let st2 := if st.sections.isEmpty then ensureSection st ("UNSORTED") else st
    appendToLastSection st2 n

/-- Create a condition slot for a matched condition line: add it to the
arena and the index and attach it (logan_parse.py lines 465 to 472 and
486 to 492); the new slot becomes the active continuation target. -/
def createCondition (st : LoganSt) (num title desc : String) : LoganSt :=
  let n := st.slots.length
  let slot := new_condition num title desc
  let st1 := { st with slots := st.slots ++ [slot], index := (num, n) :: st.index }
  let st2 := attach_condition st1 n slot.number
  { st2 with active := some n }

/-- Marker test of the continuation loops (logan_parse.py lines 480 and
500). -/
def isMarkerLine (t : String) : Bool :=
  (sectionLineM t ≠ none) || (condInlineM t ≠ none) || (condNumOnlyM t ≠ none)

/-- Top-level handling of one cleaned nonblank line (the body of the
outer loop of logan_parse.py lines 450 to 506, reached with no active
continuation).  The line is recorded into the history after the title
lookback uses the older lines only. -/
def topHandle (st : LoganSt) (t : String) : LoganSt :=
  let st := { st with seenRev := t :: st.seenRev }
  if stopMatch t then { st with stopped := true }
  else
    match sectionLineM t with
    | some g => { ensureSection st (g.1 ++ ". " ++ g.2) with active := none }
    | none =>
      match condInlineM t with
      | some (num, desc) =>
        createCondition st num (prev_topic_title st.seenRev.tail) desc
      | none =>
        match condNumOnlyM t with
        | some num =>
          createCondition st num (prev_topic_title st.seenRev.tail) ""
        | none => st

/-- Append a continuation line to the active slot's description
(logan_parse.py lines 482 and 502). -/
def appendDesc (slots : List CondSlot) (k : Nat) (t : String) : List CondSlot :=
  match slots[k]? with
  | some s => slots.set k { s with description := safe_join s.description t }
  | none => slots

/-- One step of the flattened condition walk for one normalised line:
once stopped nothing changes; blank lines are skipped; while a condition
is active, marker lines close it and are reprocessed at top level and
other lines extend its description; at top level the line is handled by
topHandle. -/
def loganStep (st : LoganSt) (raw : String) : LoganSt :=
  if st.stopped then st
  else
    let t := clean raw
    if t = "" then st
    else
      match st.active with
      | some k =>
        if isMarkerLine t then topHandle { st with active := none } t
        else { st with slots := appendDesc st.slots k t, seenRev := t :: st.seenRev }
      | none => topHandle st t

/-- The post pass of logan_parse.py lines 508 to 512: drop a leading
empty UNSORTED section when a real section exists. -/
def dropEmptyUnsorted (secs : List (String × List Nat)) : List (String × List Nat) :=
  match secs with
  | [] => []
  | s :: rest =>
    if s.1 = "UNSORTED" ∧ (s :: rest).any (fun x => x.1 ≠ "UNSORTED") ∧ s.2.isEmpty
    then rest
    else s :: rest

/-- The condition walk of logan_parse.py lines 428 to 514 over the
normalised lines: the final arena and the section lists of indices. -/
def parse_conditions (lines : List String) : List (String × List Nat) × List CondSlot :=
  let st := lines.foldl loganStep initSt
  (dropEmptyUnsorted st.sections, st.slots)

/-- Materialise the tree of one arena slot.  Children are always created
after their parent, so child indices are strictly larger than the slot
index and below the arena size; the guard bounds the recursion depth and
never fires on states the walk produces, and the fuel (seeded with the
arena size) therefore never runs out either. -/
def buildCond (slots : List CondSlot) : Nat → Nat → Cond
  | 0, _ => Cond.mk "" "" "" "" "" "" "" none none []
  | Nat.succ fuel, idx =>
    match slots[idx]? with
    | none => Cond.mk "" "" "" "" "" "" "" none none []
    | some s =>
      Cond.mk s.number s.title s.description s.timing s.timingSource
        s.timingColumn s.timingInline s.material none
        ((s.children.filter (fun c => idx < c ∧ c < slots.length)).map
          (buildCond slots fuel))

/-- Materialise all sections from the arena. -/
def buildSections (slots : List CondSlot) (secs : List (String × List Nat)) :
    List Section :=
  secs.map (fun s => (s.1, s.2.map (buildCond slots slots.length)))

/-- The claim-relevant projection of the Logan result record of
logan_parse.py lines 549 to 563. -/
structure LoganPackage where
  applicationDetails : List (String × String)
  sections : List Section
  numberOfConditions : Nat

/-- Embedding of the public Logan entry point (logan_parse.py lines 539
to 563) from extracted text lines on (the PDF text extraction of lines
157 to 167 cleans each raw line and drops blanks before normalising):
application details, the materialised condition tree and the summary
count computed by full traversal of that tree. -/
def parse_logan_conditions_pdf (rawLines : List String) : LoganPackage :=
  let lines := normalise_lines (((rawLines.map clean).filter (fun t => t ≠ "")))
  let ad := extract_logan_application_details lines
  let pc := parse_conditions lines
  let secs := buildSections pc.2 pc.1
  { applicationDetails := ad, sections := secs,
    numberOfConditions := count_conditions secs }

end Logan

/-! Counting infrastructure shared by both adapters. -/

@[simp]
theorem condNodeCount_mk (n t d ti ts tc tii : String) (m : Option Material)
    (p : Option String) (cs : List Cond) :
    condNodeCount (Cond.mk n t d ti ts tc tii m p cs) = 1 + condListNodeCount cs := by
  simp [condNodeCount]

@[simp]
theorem condListNodeCount_nil : condListNodeCount [] = 0 := by
  simp [condListNodeCount]

@[simp]
theorem condListNodeCount_cons (c : Cond) (cs : List Cond) :
    condListNodeCount (c :: cs) = condNodeCount c + condListNodeCount cs := by
  simp [condListNodeCount]

theorem condListNodeCount_append (l1 l2 : List Cond) :
    condListNodeCount (l1 ++ l2) = condListNodeCount l1 + condListNodeCount l2 := by
  induction l1 with
  | nil => simp
  | cons c cs ih => simp [ih]; omega

@[simp]
theorem count_conditions_nil : count_conditions [] = 0 := rfl

@[simp]
theorem count_conditions_cons (s : Section) (ss : List Section) :
    count_conditions (s :: ss) = condListNodeCount s.2 + count_conditions ss := rfl

theorem count_conditions_append (l1 l2 : List Section) :
    count_conditions (l1 ++ l2) = count_conditions l1 + count_conditions l2 := by
  induction l1 with
  | nil => simp
  | cons s ss ih => simp [ih]; omega

theorem condNodeCount_addChild (c child : Cond) :
    condNodeCount (c.addChild child) = condNodeCount c + condNodeCount child := by
  cases c with
  | mk n t d ti ts tc tii m p cs =>
    simp [Cond.addChild, condListNodeCount_append]
    omega

theorem appendChildLast_count (l : List Cond) (base : String) (child : Cond)
    (l2 : List Cond) (h : appendChildLast l base child = some l2) :
    condListNodeCount l2 = condListNodeCount l + condNodeCount child := by
  induction l generalizing l2 with
  | nil => simp [appendChildLast] at h
  | cons c cs ih =>
    simp only [appendChildLast] at h
    cases hrec : appendChildLast cs base child with
    | some cs2 =>
      rw [hrec] at h
      cases h
      simp [ih cs2 hrec]
      omega
    | none =>
      rw [hrec] at h
      by_cases hb : c.number = base
      · simp [hb] at h
        cases h
        simp [condNodeCount_addChild]
        omega
      · simp [hb] at h

theorem appendChildSections_count (l : List Section) (base : String) (child : Cond)
    (l2 : List Section) (h : appendChildSections l base child = some l2) :
    count_conditions l2 = count_conditions l + condNodeCount child := by
  induction l generalizing l2 with
  | nil => simp [appendChildSections] at h
  | cons s ss ih =>
    simp only [appendChildSections] at h
    cases hrec : appendChildSections ss base child with
    | some ss2 =>
      rw [hrec] at h
      cases h
      simp [ih ss2 hrec]
      omega
    | none =>
      rw [hrec] at h
      cases hl : appendChildLast s.2 base child with
      | some lst2 =>
        rw [hl] at h
        cases h
        simp [appendChildLast_count s.2 base child lst2 hl]
        omega
      | none => rw [hl] at h; cases h

namespace Bcc

/-- The tree-count invariant of the BCC walk: the running counter always
equals the full-traversal count of the flushed sections plus the open
conditions. -/
def countInv (st : BccSt) : Prop :=
  st.counter = count_conditions st.done + condListNodeCount st.cur

/-- A bold run the walk accepts as a condition: its cleaned text matches
the condition pattern and it sits in a table row with at least two
cells. -/
def validRun (b : BoldRun) : Bool :=
  (condMatch (clean b.text)).isSome &&
    (match b.row with
     | some r => 2 ≤ r.numCells
     | none => false)

theorem flush_countInv (st : BccSt) (h : countInv st) : countInv (flush st) := by
  unfold countInv flush at *
  by_cases hc : st.cur.isEmpty <;>
    simp [hc, count_conditions_append, h]

@[simp]
theorem condNodeCount_condOfRow (row : BccRow) (baseNum sfx titleRaw : String)
    (parent : Option String) :
    condNodeCount (condOfRow row baseNum sfx titleRaw parent) = 1 := by
  simp [condOfRow]

theorem attachSub_countInv (st : BccSt) (base : String) (child : Cond)
    (st2 : BccSt) (h : countInv st) (ha : attachSub st base child = some st2) :
    st2.counter + condNodeCount child =
      count_conditions st2.done + condListNodeCount st2.cur := by
  unfold attachSub at ha
  unfold countInv at h
  cases hcl : appendChildLast st.cur base child with
  | some cur2 =>
    rw [hcl] at ha
    cases ha
    have := appendChildLast_count _ _ _ _ hcl
    simp_all
    omega
  | none =>
    rw [hcl] at ha
    cases hcs : appendChildSections st.done base child with
    | some d2 =>
      rw [hcs] at ha
      cases ha
      have := appendChildSections_count _ _ _ _ hcs
      simp_all
      omega
    | none => rw [hcs] at ha; cases ha

theorem bccStep_countInv (st : BccSt) (b : BoldRun) (h : countInv st) :
    countInv (bccStep st b) := by
  unfold bccStep
  by_cases he : clean b.text = ""
  · simp [he, h]
  · simp only [he, if_false]
    cases hm : condMatch (clean b.text) with
    | none =>
      by_cases ht : b.nextTableTiming
      · simp only [ht, if_true]
        exact flush_countInv st h
      · simp [ht, h]
    | some g =>
      obtain ⟨baseNum, sfx, titleRaw⟩ := g
      cases hr : b.row with
      | none => simp [h]
      | some row =>
        by_cases hc : row.numCells < 2
        · simp [hc, h]
        · simp only [hc, if_false]
          by_cases hs : lowerStr sfx ≠ ""
          · rw [if_pos hs]
            cases ha : attachSub st baseNum
                (condOfRow row baseNum sfx titleRaw (some baseNum)) with
            | some st2 =>
              simp only [ha]
              have h2 := attachSub_countInv st baseNum _ st2 h ha
              unfold countInv
              simpa using h2
            | none =>
              simp only [ha]
              unfold countInv at *
              simp [condListNodeCount_append, h]
              omega
          · rw [if_neg hs]
            unfold countInv at *
            simp [condListNodeCount_append, h]
            omega

theorem foldl_countInv (bolds : List BoldRun) (st : BccSt) (h : countInv st) :
    countInv (bolds.foldl bccStep st) := by
  induction bolds generalizing st with
  | nil => exact h
  | cons b bs ih => exact ih (bccStep st b) (bccStep_countInv st b h)

theorem flush_cur_nil (st : BccSt) : (flush st).cur = [] := by
  unfold flush
  by_cases hc : st.cur.isEmpty
  · simpa [hc] using List.isEmpty_iff.mp hc
  · simp [hc]

/-- Accepted bold runs in the input, counted in order. -/
def validBoldCount (bolds : List BoldRun) : Nat :=
  bolds.countP validRun

/-- Bold runs whose cleaned text matches the condition pattern,
regardless of the surrounding table row. -/
def matchedBoldCount (bolds : List BoldRun) : Nat :=
  bolds.countP (fun b => (condMatch (clean b.text)).isSome)

theorem attachSub_counter (st : BccSt) (base : String) (child : Cond)
    (st2 : BccSt) (ha : attachSub st base child = some st2) :
    st2.counter = st.counter := by
  unfold attachSub at ha
  cases hcl : appendChildLast st.cur base child with
  | some cur2 => rw [hcl] at ha; cases ha; rfl
  | none =>
    rw [hcl] at ha
    cases hcs : appendChildSections st.done base child with
    | some d2 => rw [hcs] at ha; cases ha; rfl
    | none => rw [hcs] at ha; cases ha

theorem bccStep_counter (st : BccSt) (b : BoldRun) :
    (bccStep st b).counter = st.counter + (if validRun b then 1 else 0) := by
  unfold bccStep validRun
  by_cases he : clean b.text = ""
  · rw [he]
    simp [condMatch, condMatchL]
  · simp only [he, if_false]
    cases hm : condMatch (clean b.text) with
    | none =>
      by_cases ht : b.nextTableTiming
      · simp only [ht, if_true]
        simp [flush]
        split <;> simp
      · simp [ht]
    | some g =>
      obtain ⟨baseNum, sfx, titleRaw⟩ := g
      cases hr : b.row with
      | none => simp
      | some row =>
        by_cases hc : row.numCells < 2
        · have h2 : (2 ≤ row.numCells) = False := by simp; omega
          simp [hc, h2]
        · simp only [hc, if_false]
          have h2 : (2 ≤ row.numCells) = True := by simp; omega
          by_cases hs : lowerStr sfx ≠ ""
          · rw [if_pos hs]
            cases ha : attachSub st baseNum
                (condOfRow row baseNum sfx titleRaw (some baseNum)) with
            | some st2 =>
              simp [h2, attachSub_counter st baseNum _ st2 ha]
            | none => simp [h2]
          · rw [if_neg hs]
            simp [h2]

theorem foldl_counter (bolds : List BoldRun) (st : BccSt) :
    (bolds.foldl bccStep st).counter = st.counter + validBoldCount bolds := by
  induction bolds generalizing st with
  | nil => simp [validBoldCount]
  | cons b bs ih =>
    simp only [List.foldl_cons, validBoldCount, List.countP_cons]
    rw [ih (bccStep st b), bccStep_counter]
    unfold validBoldCount
    by_cases hv : validRun b <;> (simp [hv]; try omega)

/-- The BCC summary counter always equals the full-traversal count of the
returned sections. -/
theorem bcc_counter_eq_tree_count (bolds : List BoldRun) :
    (parse_conditions bolds).2 = count_conditions (parse_conditions bolds).1 := by
  unfold parse_conditions
  have h0 : countInv initSt := by simp [countInv, initSt]
  have h1 := flush_countInv _ (foldl_countInv bolds initSt h0)
  have h2 := flush_cur_nil (bolds.foldl bccStep initSt)
  unfold countInv at h1
  rw [h2] at h1
  simpa using h1

/-- The number of condition nodes the BCC walk returns equals the number
of accepted bold runs. -/
theorem bcc_tree_count_eq_valid (bolds : List BoldRun) :
    count_conditions (parse_conditions bolds).1 = validBoldCount bolds := by
  have h1 := bcc_counter_eq_tree_count bolds
  have h2 : (parse_conditions bolds).2 = validBoldCount bolds := by
    unfold parse_conditions
    have h3 := foldl_counter bolds initSt
    have h4 : ((flush (bolds.foldl bccStep initSt)).counter) =
        (bolds.foldl bccStep initSt).counter := by
      unfold flush
      split <;> simp
    simp only [h4]
    simpa [initSt] using h3
  omega

end Bcc

namespace Logan

/-! Acceptor for the dotted-number language
backslash-d+ (dot backslash-d+)+ of the Logan condition patterns: inside
a digit run with k completed dot groups, the word is accepted at the end
when at least one dot group was completed; a dot must be followed by at
least one digit (the dottedDot half). -/

mutual

def dottedGo : List Char → Nat → Bool
  | [], k => decide (1 ≤ k)
  | c :: cs, k =>
    if c.isDigit then dottedGo cs k
    else if c = '.' then dottedDot cs k
    else false

def dottedDot : List Char → Nat → Bool
  | c2 :: cs2, k => if c2.isDigit then dottedGo cs2 (k + 1) else false
  | [], _ => false

end

/-- A dotted condition number: one or more digits followed by one or more
groups of a dot and one or more digits (the language of the Logan
condition-number patterns). -/
def isDottedNumberL (cs : List Char) : Bool :=
  match cs with
  | c :: cs2 => c.isDigit && dottedGo cs2 0
  | [] => false

/-- String-level dotted-number test. -/
def isDottedNumber (s : String) : Bool :=
  isDottedNumberL s.data

theorem dottedGo_digits_skip (d : List Char) (cs : List Char) (k : Nat)
    (hd : ∀ c ∈ d, c.isDigit) : dottedGo (d ++ cs) k = dottedGo cs k := by
  induction d with
  | nil => rfl
  | cons c d2 ih =>
    have hc : c.isDigit := hd c (by simp)
    simp only [List.cons_append, dottedGo, hc, if_true]
    exact ih (fun x hx => hd x (by simp [hx]))

theorem dottedGo_all_digits (d : List Char) (k : Nat)
    (hd : ∀ c ∈ d, c.isDigit) : dottedGo d k = decide (1 ≤ k) := by
  have h := dottedGo_digits_skip d [] k hd
  simpa [dottedGo] using h

theorem dottedGo_extend (cs : List Char) (k : Nat) (d : List Char)
    (h : dottedGo cs k = true) (hd0 : d ≠ []) (hd : ∀ c ∈ d, c.isDigit) :
    dottedGo (cs ++ '.' :: d) k = true := by
  induction cs generalizing k with
  | nil =>
    cases d with
    | nil => exact absurd rfl hd0
    | cons c d2 =>
      have hc : c.isDigit := hd c (by simp)
      have hdig : ('.' : Char).isDigit = false := by decide
      simp only [List.nil_append, dottedGo, hdig, Bool.false_eq_true, if_false,
        if_true, dottedDot, hc]
      rw [dottedGo_all_digits d2 (k + 1) (fun x hx => hd x (by simp [hx]))]
      simp
  | cons c cs2 ih =>
    simp only [dottedGo] at h
    by_cases hc : c.isDigit
    · simp only [List.cons_append, dottedGo, hc, if_true]
      simp only [hc, if_true] at h
      exact ih k h
    · simp only [hc, Bool.false_eq_true, if_false] at h
      by_cases hdot : c = '.'
      · subst hdot
        simp only [if_true] at h
        cases cs2 with
        | nil => simp [dottedDot] at h
        | cons c2 cs3 =>
          simp only [dottedDot] at h
          by_cases hc2 : c2.isDigit
          · simp only [hc2, if_true] at h
            have h2 : dottedGo (c2 :: cs3) (k + 1) = true := by
              simp [dottedGo, hc2, h]
            have h3 := ih (k + 1) h2
            have hdig : ('.' : Char).isDigit = false := by decide
            simp only [List.cons_append, dottedGo, hc2, if_true] at h3
            simpa [dottedGo, dottedDot, hdig, hc2] using h3
          · simp [hc2] at h
      · simp [hdot] at h

theorem dottedGo_chars (cs : List Char) :
    ∀ (k : Nat), dottedGo cs k = true → ∀ c ∈ cs, c.isDigit ∨ c = '.' := by
  induction cs with
  | nil => intro k _ c hc; simp at hc
  | cons c cs2 ih =>
    intro k h x hx
    simp only [dottedGo] at h
    by_cases hc : c.isDigit
    · simp only [hc, if_true] at h
      rcases List.mem_cons.mp hx with hx | hx
      · subst hx; exact Or.inl hc
      · exact ih k h x hx
    · simp only [hc, Bool.false_eq_true, if_false] at h
      by_cases hdot : c = '.'
      · subst hdot
        simp only [if_true] at h
        cases cs2 with
        | nil => simp [dottedDot] at h
        | cons c2 cs3 =>
          simp only [dottedDot] at h
          by_cases hc2 : c2.isDigit
          · simp only [hc2, if_true] at h
            have h2 : dottedGo (c2 :: cs3) (k + 1) = true := by
              simp [dottedGo, hc2, h]
            rcases List.mem_cons.mp hx with hx | hx
            · subst hx; exact Or.inr rfl
            · exact ih (k + 1) h2 x hx
          · simp [hc2] at h
      · simp [hdot] at h

theorem isDottedNumberL_base (d1 d : List Char) (h1 : d1 ≠ [])
    (hd1 : ∀ c ∈ d1, c.isDigit) (h2 : d ≠ []) (hd : ∀ c ∈ d, c.isDigit) :
    isDottedNumberL (d1 ++ '.' :: d) = true := by
  cases d1 with
  | nil => exact absurd rfl h1
  | cons c d12 =>
    have hc : c.isDigit := hd1 c (by simp)
    simp only [List.cons_append, isDottedNumberL, hc, Bool.true_and]
    rw [dottedGo_digits_skip d12 ('.' :: d) 0 (fun x hx => hd1 x (by simp [hx]))]
    cases d with
    | nil => exact absurd rfl h2
    | cons c2 d2 =>
      have hc2 : c2.isDigit := hd c2 (by simp)
      have hdig : ('.' : Char).isDigit = false := by decide
      simp only [dottedGo, hdig, Bool.false_eq_true, if_false, if_true,
        dottedDot, hc2]
      rw [dottedGo_all_digits d2 1 (fun x hx => hd x (by simp [hx]))]
      simp

theorem isDottedNumberL_extend (acc d : List Char)
    (h : isDottedNumberL acc = true) (h2 : d ≠ []) (hd : ∀ c ∈ d, c.isDigit) :
    isDottedNumberL (acc ++ '.' :: d) = true := by
  cases acc with
  | nil => simp [isDottedNumberL] at h
  | cons c acc2 =>
    simp only [isDottedNumberL, Bool.and_eq_true] at h
    simp only [List.cons_append, isDottedNumberL, h.1, Bool.true_and]
    exact dottedGo_extend acc2 0 d h.2 h2 hd

theorem isDottedNumberL_chars (cs : List Char) (h : isDottedNumberL cs = true) :
    ∀ c ∈ cs, c.isDigit ∨ c = '.' := by
  cases cs with
  | nil => simp [isDottedNumberL] at h
  | cons c cs2 =>
    simp only [isDottedNumberL, Bool.and_eq_true] at h
    intro x hx
    rcases List.mem_cons.mp hx with hx | hx
    · subst hx; exact Or.inl h.1
    · exact dottedGo_chars cs2 0 h.2 x hx


theorem condSegsGo_dotted : ∀ (fuel : Nat) (cs acc nm r : List Char),
    condSegsGo fuel acc cs = some (nm, r) → isDottedNumberL acc = true →
    isDottedNumberL nm = true := by
  intro fuel
  induction fuel with
  | zero =>
    intro cs acc nm r h _
    simp [condSegsGo] at h
  | succ n ih =>
    intro cs acc nm r h hacc
    unfold condSegsGo at h
    dsimp only at h
    split at h
    · rename_i rest
      split at h
      · split at h
        · simp at h
        · simp only [Option.some.injEq, Prod.mk.injEq] at h
          rw [← h.1]
          exact hacc
      · rename_i hd
        have hne : rest.takeWhile Char.isDigit ≠ [] := by
          intro hx; rw [hx] at hd; simp at hd
        have hdd : ∀ c ∈ rest.takeWhile Char.isDigit, c.isDigit :=
          fun c hc => List.mem_takeWhile_imp hc
        exact ih _ _ nm r h (isDottedNumberL_extend acc _ hacc hne hdd)
    · simp at h

theorem condNumSegsGo_dotted : ∀ (fuel : Nat) (cs acc nm : List Char),
    condNumSegsGo fuel acc cs = some nm → isDottedNumberL acc = true →
    isDottedNumberL nm = true := by
  intro fuel
  induction fuel with
  | zero =>
    intro cs acc nm h _
    simp [condNumSegsGo] at h
  | succ n ih =>
    intro cs acc nm h hacc
    unfold condNumSegsGo at h
    dsimp only at h
    split at h
    · rename_i rest
      split at h
      · split at h
        · simp only [Option.some.injEq] at h
          rw [← h]
          exact hacc
        · simp at h
      · rename_i hd
        have hne : rest.takeWhile Char.isDigit ≠ [] := by
          intro hx; rw [hx] at hd; simp at hd
        have hdd : ∀ c ∈ rest.takeWhile Char.isDigit, c.isDigit :=
          fun c hc => List.mem_takeWhile_imp hc
        exact ih _ _ nm h (isDottedNumberL_extend acc _ hacc hne hdd)
    · simp at h

/-- A digit or a dot is not whitespace. -/
theorem not_space_of_digit_or_dot (c : Char) (h : c.isDigit ∨ c = '.') :
    isPySpace c = false := by
  rcases h with h | h
  · simp only [isPySpace, Bool.or_eq_false_iff, decide_eq_false_iff_not]
    refine ⟨⟨⟨⟨⟨?_, ?_⟩, ?_⟩, ?_⟩, ?_⟩, ?_⟩ <;>
      (intro heq; subst heq; exact absurd h (by decide))
  · subst h; decide

/-- The collapsing pass leaves a whitespace-free character list
unchanged. -/
theorem cleanGo_id (cs : List Char) (h : ∀ c ∈ cs, isPySpace c = false) :
    cleanGo false cs = cs := by
  induction cs with
  | nil => rfl
  | cons c cs2 ih =>
    have hc : isPySpace c = false := h c (by simp)
    simp only [cleanGo, hc, Bool.false_eq_true, if_false]
    rw [ih (fun x hx => h x (by simp [hx]))]

/-- Cleaning leaves a whitespace-free character list unchanged. -/
theorem cleanL_id (cs : List Char) (h : ∀ c ∈ cs, isPySpace c = false) :
    cleanL cs = cs := by
  cases cs with
  | nil => rfl
  | cons c cs2 =>
    have hc : isPySpace c = false := h c (by simp)
    unfold cleanL
    rw [List.dropWhile_cons]
    simp only [hc, Bool.false_eq_true, if_false]
    exact cleanGo_id _ h

/-- Cleaning leaves a dotted number unchanged. -/
theorem clean_dotted (nm : List Char) (h : isDottedNumberL nm = true) :
    clean (String.mk nm) = String.mk nm := by
  unfold clean
  exact congrArg String.mk (cleanL_id nm
    (fun c hc => not_space_of_digit_or_dot c (isDottedNumberL_chars nm h c hc)))

theorem condInlineM_dotted (t num rest2 : String)
    (h : condInlineM t = some (num, rest2)) : isDottedNumber num = true := by
  unfold condInlineM at h
  dsimp only at h
  split at h
  · simp at h
  · split at h
    · split at h
      · simp at h
      · split at h
        · rename_i h1 x1 rest heq1 h2 x2 nm r2 hseg
          simp only [Option.some.injEq, Prod.mk.injEq] at h
          have hbase : isDottedNumberL
              (t.data.takeWhile Char.isDigit ++ '.' :: rest.takeWhile Char.isDigit) = true := by
            apply isDottedNumberL_base
            · intro hx; rw [hx] at h1; simp at h1
            · exact fun c hc => List.mem_takeWhile_imp hc
            · intro hx; rw [hx] at h2; simp at h2
            · exact fun c hc => List.mem_takeWhile_imp hc
          have hnm := condSegsGo_dotted _ _ _ nm r2 hseg hbase
          rw [← h.1]
          exact hnm
        · simp at h
    · simp at h

theorem condNumOnlyM_dotted (t num : String)
    (h : condNumOnlyM t = some num) : isDottedNumber num = true := by
  unfold condNumOnlyM at h
  dsimp only at h
  split at h
  · simp at h
  · split at h
    · split at h
      · simp at h
      · split at h
        · rename_i h1 x1 rest heq1 h2 x2 nm hseg
          simp only [Option.some.injEq] at h
          have hbase : isDottedNumberL
              (t.data.takeWhile Char.isDigit ++ '.' :: rest.takeWhile Char.isDigit) = true := by
            apply isDottedNumberL_base
            · intro hx; rw [hx] at h1; simp at h1
            · exact fun c hc => List.mem_takeWhile_imp hc
            · intro hx; rw [hx] at h2; simp at h2
            · exact fun c hc => List.mem_takeWhile_imp hc
          have hnm := condNumSegsGo_dotted _ _ _ nm hseg hbase
          rw [← h]
          exact hnm
        · simp at h
    · simp at h

/-! Structural invariants of the Logan walk: every slot index is
referenced exactly once across the section top-level lists and the slot
children lists (as a multiset this is exactly the range of the arena
size), children indices point strictly forward, index bindings are in
range, and every slot number is a dotted number. -/

/-- All top-level slot references of the section list, in order. -/
def topRefs (secs : List (String × List Nat)) : List Nat :=
  (secs.map (fun s => s.2)).flatten

/-- All child slot references of the arena, in order. -/
def childRefs (slots : List CondSlot) : List Nat :=
  (slots.map (fun s => s.children)).flatten

/-- Exactly-once reference invariant. -/
def InvRefs (st : LoganSt) : Prop :=
  ((topRefs st.sections ++ childRefs st.slots : List Nat) : Multiset Nat) =
    Multiset.range st.slots.length

/-- Children point strictly forward and stay in range. -/
def InvMono (slots : List CondSlot) : Prop :=
  ∀ p s, slots[p]? = some s → ∀ c ∈ s.children, p < c ∧ c < slots.length

/-- Index bindings are in range. -/
def InvIdx (st : LoganSt) : Prop :=
  ∀ kv ∈ st.index, kv.2 < st.slots.length

/-- Every slot number is dotted. -/
def InvDotted (slots : List CondSlot) : Prop :=
  ∀ s ∈ slots, isDottedNumber s.number = true

/-- Conjunction of the walk invariants. -/
def Inv (st : LoganSt) : Prop :=
  InvRefs st ∧ InvMono st.slots ∧ InvIdx st ∧ InvDotted st.slots

theorem topRefs_append (a b : List (String × List Nat)) :
    topRefs (a ++ b) = topRefs a ++ topRefs b := by
  simp [topRefs]

theorem childRefs_append (a b : List CondSlot) :
    childRefs (a ++ b) = childRefs a ++ childRefs b := by
  simp [childRefs]

theorem ensureSection_topRefs (st : LoganSt) (t : String) :
    topRefs (ensureSection st t).sections = topRefs st.sections := by
  simp [ensureSection, topRefs_append, topRefs]

theorem appendToLastSection_topRefs (st : LoganSt) (n : Nat)
    (hne : st.sections ≠ []) :
    (topRefs (appendToLastSection st n).sections : Multiset Nat) =
      (topRefs st.sections : Multiset Nat) + {n} := by
  unfold appendToLastSection
  cases hlast : st.sections.getLast? with
  | none => exact absurd (List.getLast?_eq_none_iff.mp hlast) hne
  | some sec =>
    simp only
    have hsplit : st.sections = st.sections.dropLast ++ [sec] := by
      conv_lhs => rw [← List.dropLast_append_getLast hne]
      rw [List.getLast?_eq_getLast _ hne] at hlast
      simp only [Option.some.injEq] at hlast
      rw [hlast]
    conv_rhs => rw [hsplit]
    rw [topRefs_append, topRefs_append]
    simp only [topRefs, List.map_cons, List.map_nil, List.flatten_cons,
      List.flatten_nil, List.append_nil]
    simp only [← Multiset.coe_add, ← Multiset.coe_singleton]
    abel

theorem slotAddChild_length (slots : List CondSlot) (p n : Nat) :
    (slotAddChild slots p n).length = slots.length := by
  unfold slotAddChild
  cases h : slots[p]? <;> simp

theorem slotAddChild_getElem_ne (slots : List CondSlot) (p n q : Nat)
    (hq : q ≠ p) : (slotAddChild slots p n)[q]? = slots[q]? := by
  unfold slotAddChild
  cases h : slots[p]? with
  | none => rfl
  | some s => simp [List.getElem?_set_ne (Ne.symm hq)]

theorem slotAddChild_getElem_eq (slots : List CondSlot) (p n : Nat)
    (s : CondSlot) (h : slots[p]? = some s) :
    (slotAddChild slots p n)[p]? = some { s with children := s.children ++ [n] } := by
  unfold slotAddChild
  rw [h]
  simp only
  have hp : p < slots.length := by
    by_contra hc
    rw [List.getElem?_eq_none (by omega)] at h
    cases h
  simp [List.getElem?_set_self, hp]

theorem childRefs_set (slots : List CondSlot) (p : Nat) (s s2 : CondSlot)
    (h : slots[p]? = some s) :
    ((childRefs (slots.set p s2) : List Nat) : Multiset Nat) + (s.children : Multiset Nat) =
      ((childRefs slots : List Nat) : Multiset Nat) + (s2.children : Multiset Nat) := by
  induction slots generalizing p with
  | nil => simp at h
  | cons x xs ih =>
    cases p with
    | zero =>
      simp only [List.getElem?_cons_zero, Option.some.injEq] at h
      subst h
      simp only [List.set_cons_zero, childRefs, List.map_cons, List.flatten_cons]
      simp only [← Multiset.coe_add]
      abel
    | succ p2 =>
      simp only [List.getElem?_cons_succ] at h
      have h2 := ih p2 h
      simp only [List.set_cons_succ, childRefs, List.map_cons, List.flatten_cons]
      simp only [childRefs] at h2
      simp only [← Multiset.coe_add] at h2 ⊢
      rw [add_assoc, h2, ← add_assoc]

theorem map_set_same {α : Type} (f : CondSlot → α) (slots : List CondSlot) :
    ∀ (k : Nat) (s s2 : CondSlot), slots[k]? = some s → f s2 = f s →
      (slots.set k s2).map f = slots.map f := by
  induction slots with
  | nil => intro k s s2 h _; simp at h
  | cons x xs ih =>
    intro k s s2 h hf
    cases k with
    | zero =>
      simp only [List.getElem?_cons_zero, Option.some.injEq] at h
      subst h
      simp [hf]
    | succ k2 =>
      simp only [List.getElem?_cons_succ] at h
      simp only [List.set_cons_succ, List.map_cons]
      rw [ih k2 s s2 h hf]

theorem appendDesc_children (slots : List CondSlot) (k : Nat) (t : String) :
    (appendDesc slots k t).map (fun s => s.children) =
      slots.map (fun s => s.children) := by
  unfold appendDesc
  cases h : slots[k]? with
  | none => rfl
  | some s => exact map_set_same _ slots k s _ h rfl

theorem slotAddChild_childRefs (slots : List CondSlot) (p n : Nat)
    (s : CondSlot) (h : slots[p]? = some s) :
    ((childRefs (slotAddChild slots p n) : List Nat) : Multiset Nat) =
      ((childRefs slots : List Nat) : Multiset Nat) + {n} := by
  unfold slotAddChild
  rw [h]
  simp only
  have h2 := childRefs_set slots p s { s with children := s.children ++ [n] } h
  simp only at h2
  have h3 : ((s.children ++ [n] : List Nat) : Multiset Nat) =
      ((s.children : List Nat) : Multiset Nat) + {n} := by
    simp [← Multiset.coe_add, ← Multiset.coe_singleton]
  rw [h3] at h2
  apply add_right_cancel (b := ((s.children : List Nat) : Multiset Nat))
  rw [h2]
  abel

theorem dottedGo_mem_dot (cs : List Char) :
    ∀ (k : Nat), dottedGo cs k = true → 1 ≤ k ∨ '.' ∈ cs := by
  induction cs with
  | nil =>
    intro k h
    simp [dottedGo] at h
    exact Or.inl h
  | cons c cs2 ih =>
    intro k h
    simp only [dottedGo] at h
    by_cases hc : c.isDigit
    · simp only [hc, if_true] at h
      rcases ih k h with h2 | h2
      · exact Or.inl h2
      · exact Or.inr (by simp [h2])
    · simp only [hc, Bool.false_eq_true, if_false] at h
      by_cases hdot : c = '.'
      · exact Or.inr (by simp [hdot])
      · simp [hdot] at h

theorem dotted_contains_dot (num : String) (h : isDottedNumber num = true) :
    num.data.contains '.' = true := by
  unfold isDottedNumber isDottedNumberL at h
  cases hd : num.data with
  | nil => rw [hd] at h; simp at h
  | cons c cs2 =>
    rw [hd] at h
    simp only [Bool.and_eq_true] at h
    rcases dottedGo_mem_dot cs2 0 h.2 with h2 | h2
    · omega
    · simp [hd, List.contains, h2]

theorem lookupIndex_cons_ne (ix : List (String × Nat)) (k0 : String) (v0 : Nat)
    (k : String) (hne : k ≠ k0) :
    lookupIndex ((k0, v0) :: ix) k = lookupIndex ix k := by
  unfold lookupIndex
  rw [List.find?_cons_of_neg]
  simp [Ne.symm hne]

theorem lookupIndex_mem (ix : List (String × Nat)) (k : String) (v : Nat)
    (h : lookupIndex ix k = some v) : (k, v) ∈ ix := by
  unfold lookupIndex at h
  cases hf : ix.find? (fun p => p.1 = k) with
  | none => rw [hf] at h; cases h
  | some p =>
    rw [hf] at h
    cases h
    have hmem := List.mem_of_find?_eq_some hf
    have hp := List.find?_some hf
    simp only [decide_eq_true_eq] at hp
    obtain ⟨p1, p2⟩ := p
    simp only at hp
    subst hp
    exact hmem

theorem inv_seenRev (st : LoganSt) (x : List String) (h : Inv st) :
    Inv { st with seenRev := x } := h

theorem inv_active (st : LoganSt) (x : Option Nat) (h : Inv st) :
    Inv { st with active := x } := h

theorem inv_stopped (st : LoganSt) (x : Bool) (h : Inv st) :
    Inv { st with stopped := x } := h

theorem ensureSection_inv (st : LoganSt) (t : String) (h : Inv st) :
    Inv (ensureSection st t) := by
  obtain ⟨hrefs, hmono, hidx, hdot⟩ := h
  refine ⟨?_, hmono, hidx, hdot⟩
  unfold InvRefs at hrefs ⊢
  rw [show (ensureSection st t).sections = st.sections ++ [(clean t, [])] from rfl]
  have h2 : topRefs (st.sections ++ [(clean t, [])]) = topRefs st.sections := by
    simp [topRefs_append, topRefs]
  rw [h2]
  exact hrefs

theorem appendToLastSection_slots (st : LoganSt) (n : Nat) :
    (appendToLastSection st n).slots = st.slots := by
  unfold appendToLastSection
  cases st.sections.getLast? <;> rfl

theorem appendToLastSection_index (st : LoganSt) (n : Nat) :
    (appendToLastSection st n).index = st.index := by
  unfold appendToLastSection
  cases st.sections.getLast? <;> rfl

theorem createCondition_inv (st : LoganSt) (num title desc : String)
    (hinv : Inv st) (hnum : isDottedNumber num = true) :
    Inv (createCondition st num title desc) := by
  obtain ⟨hrefs, hmono, hidx, hdot⟩ := hinv
  set n := st.slots.length with hn
  have hslotnum : (new_condition num title desc).number = num := by
    unfold new_condition
    exact clean_dotted num.data hnum
  have hslotch : (new_condition num title desc).children = [] := rfl
  set slot := new_condition num title desc with hslot
  set slots1 := st.slots ++ [slot] with hslots1
  have hlen1 : slots1.length = n + 1 := by simp [hslots1]
  have hchild1 : childRefs slots1 = childRefs st.slots := by
    rw [hslots1, childRefs_append]
    simp [childRefs, hslotch]
  have hmono1 : InvMono slots1 := by
    intro p s hp c hc
    by_cases hplen : p < n
    · rw [hslots1, List.getElem?_append_left hplen] at hp
      have := hmono p s hp c hc
      omega
    · have hpn : p = n ∨ n < p := by omega
      rcases hpn with hpn | hpn
      · subst hpn
        rw [hslots1] at hp
        rw [List.getElem?_append_right (by omega)] at hp
        simp only [hn, Nat.sub_self, List.getElem?_cons_zero, Option.some.injEq] at hp
        rw [← hp] at hc
        rw [hslotch] at hc
        simp at hc
      · rw [hslots1, List.getElem?_eq_none (by simp; omega)] at hp
        cases hp
  have hdot1 : InvDotted slots1 := by
    intro s hs
    rw [hslots1] at hs
    rcases List.mem_append.mp hs with hs | hs
    · exact hdot s hs
    · simp only [List.mem_singleton] at hs
      subst hs
      rw [hslotnum]
      exact hnum
  unfold createCondition
  dsimp only
  rw [← hslots1]
  rw [show (new_condition num title desc).number = num from hslotnum]
  unfold attach_condition
  dsimp only
  rw [if_pos (by exact dotted_contains_dot num hnum)]
  rw [lookupIndex_cons_ne st.index num n (parentOf num)
    (parentOf_ne num (dotted_contains_dot num hnum))]
  cases hlk : lookupIndex st.index (parentOf num) with
  | some p =>
    have hp : p < n := hidx (parentOf num, p) (lookupIndex_mem _ _ _ hlk)
    have hp1 : p < slots1.length := by omega
    obtain ⟨sp, hsp⟩ : ∃ sp, slots1[p]? = some sp := by
      rw [List.getElem?_eq_getElem hp1]
      exact ⟨_, rfl⟩
    refine ⟨?_, ?_, ?_, ?_⟩
    · unfold InvRefs at hrefs ⊢
      dsimp only
      simp only [slotAddChild_length, hlen1]
      simp only [← Multiset.coe_add] at hrefs ⊢
      rw [slotAddChild_childRefs slots1 p n sp hsp, hchild1]
      rw [Multiset.range_succ, ← hrefs, ← Multiset.singleton_add]
      abel
    · intro q s2 hq c hc
      dsimp only at hq
      have hL : (slotAddChild slots1 p n).length = n + 1 := by
        rw [slotAddChild_length, hlen1]
      by_cases hqp : q = p
      · subst hqp
        rw [slotAddChild_getElem_eq slots1 q n sp hsp] at hq
        injection hq with hq
        subst hq
        simp only [List.mem_append, List.mem_singleton] at hc
        rcases hc with hc | hc
        · have h5 := hmono1 q sp hsp c hc
          rw [hL]
          omega
        · subst hc
          rw [hL]
          exact ⟨hp, Nat.lt_succ_self n⟩
      · rw [slotAddChild_getElem_ne slots1 p n q hqp] at hq
        have h5 := hmono1 q s2 hq c hc
        rw [hL]
        omega
    · intro kv hkv
      dsimp only at hkv ⊢
      have hL : (slotAddChild slots1 p n).length = n + 1 := by
        rw [slotAddChild_length, hlen1]
      rw [hL]
      rcases List.mem_cons.mp hkv with hkv | hkv
      · subst hkv
        exact Nat.lt_succ_self n
      · exact Nat.lt_succ_of_lt (hidx kv hkv)
    · intro s2 hs
      dsimp only at hs
      unfold slotAddChild at hs
      rw [hsp] at hs
      simp only at hs
      rcases List.mem_or_eq_of_mem_set hs with hs | hs
      · exact hdot1 s2 hs
      · subst hs
        exact hdot1 sp (List.getElem?_mem hsp)
  | none =>
    dsimp only
    have hkey : ∀ R : LoganSt, R.slots = slots1 → R.index = (num, n) :: st.index →
        ((topRefs R.sections : List Nat) : Multiset Nat) =
          ((topRefs st.sections : List Nat) : Multiset Nat) + {n} → Inv R := by
      intro R hRs hRi hRt
      refine ⟨?_, ?_, ?_, ?_⟩
      · unfold InvRefs at hrefs ⊢
        rw [hRs, hlen1]
        simp only [← Multiset.coe_add] at hrefs ⊢
        rw [hRt, hchild1]
        rw [Multiset.range_succ, ← hrefs, ← Multiset.singleton_add]
        abel
      · rw [hRs]
        exact hmono1
      · intro kv hkv
        rw [hRi] at hkv
        rw [hRs, hlen1]
        rcases List.mem_cons.mp hkv with hkv | hkv
        · subst hkv
          exact Nat.lt_succ_self n
        · exact Nat.lt_succ_of_lt (hidx kv hkv)
      · rw [hRs]
        exact hdot1
    by_cases hse : st.sections.isEmpty = true
    · rw [if_pos hse]
      refine hkey _ ?_ ?_ ?_
      · rw [appendToLastSection_slots]
        rfl
      · rw [appendToLastSection_index]
        rfl
      · rw [appendToLastSection_topRefs _ _ (by simp [ensureSection])]
        rw [ensureSection_topRefs]
    · rw [if_neg hse]
      have hne : st.sections ≠ [] := by
        intro hcon
        exact hse (by simp [hcon])
      refine hkey _ ?_ ?_ ?_
      · rw [appendToLastSection_slots]
      · rw [appendToLastSection_index]
      · dsimp only
        rw [appendToLastSection_topRefs _ _ (by exact hne)]

theorem appendDesc_length (slots : List CondSlot) (k : Nat) (t : String) :
    (appendDesc slots k t).length = slots.length := by
  unfold appendDesc
  cases h : slots[k]? <;> simp

theorem appendDesc_childRefs (slots : List CondSlot) (k : Nat) (t : String) :
    childRefs (appendDesc slots k t) = childRefs slots := by
  unfold childRefs
  rw [appendDesc_children]

theorem appendDesc_getElem (slots : List CondSlot) (k : Nat) (t : String) (p : Nat) :
    ((appendDesc slots k t)[p]?).map (fun s => s.children) =
      (slots[p]?).map (fun s => s.children) := by
  unfold appendDesc
  cases hk : slots[k]? with
  | none => rfl
  | some s =>
    simp only
    by_cases hpk : p = k
    · subst hpk
      have hp : p < slots.length := by
        by_contra hc
        rw [List.getElem?_eq_none (by omega)] at hk
        cases hk
      simp [List.getElem?_set_self, hp, hk]
    · simp [List.getElem?_set_ne (Ne.symm hpk)]

theorem appendDesc_inv (st : LoganSt) (k : Nat) (t : String) (h : Inv st) :
    Inv { st with slots := appendDesc st.slots k t, seenRev := t :: st.seenRev } := by
  obtain ⟨hrefs, hmono, hidx, hdot⟩ := h
  refine ⟨?_, ?_, ?_, ?_⟩
  · unfold InvRefs at hrefs ⊢
    dsimp only
    rw [appendDesc_childRefs, appendDesc_length]
    exact hrefs
  · intro p s2 hp c hc
    dsimp only at hp
    rw [appendDesc_length]
    have h2 := appendDesc_getElem st.slots k t p
    rw [hp] at h2
    cases hq : st.slots[p]? with
    | none =>
      rw [hq] at h2
      cases h2
    | some s =>
      rw [hq] at h2
      simp only [Option.map_some'] at h2
      injection h2 with h2
      rw [h2] at hc
      exact hmono p s hq c hc
  · intro kv hkv
    dsimp only at hkv ⊢
    rw [appendDesc_length]
    exact hidx kv hkv
  · intro s2 hs
    dsimp only at hs
    unfold appendDesc at hs
    cases hk : st.slots[k]? with
    | none =>
      rw [hk] at hs
      exact hdot s2 hs
    | some s =>
      rw [hk] at hs
      simp only at hs
      rcases List.mem_or_eq_of_mem_set hs with hs | hs
      · exact hdot s2 hs
      · subst hs
        show isDottedNumber s.number = true
        exact hdot s (List.getElem?_mem hk)

theorem topHandle_inv (st : LoganSt) (t : String) (h : Inv st) :
    Inv (topHandle st t) := by
  unfold topHandle
  dsimp only
  have h1 : Inv { st with seenRev := t :: st.seenRev } := h
  by_cases hstop : stopMatch t = true
  · rw [if_pos hstop]
    exact h1
  · rw [if_neg hstop]
    cases hsec : sectionLineM t with
    | some g => exact ensureSection_inv _ _ h1
    | none =>
      cases hinl : condInlineM t with
      | some pr =>
        obtain ⟨num, desc⟩ := pr
        exact createCondition_inv _ num _ desc h1 (condInlineM_dotted t num desc hinl)
      | none =>
        cases hnuo : condNumOnlyM t with
        | some num =>
          exact createCondition_inv _ num _ "" h1 (condNumOnlyM_dotted t num hnuo)
        | none => exact h1

theorem loganStep_inv (st : LoganSt) (raw : String) (h : Inv st) :
    Inv (loganStep st raw) := by
  unfold loganStep
  by_cases hstop : st.stopped = true
  · rw [if_pos hstop]
    exact h
  · rw [if_neg hstop]
    dsimp only
    by_cases hblank : clean raw = ""
    · rw [if_pos hblank]
      exact h
    · rw [if_neg hblank]
      cases hact : st.active with
      | some k =>
        dsimp only
        by_cases hmark : isMarkerLine (clean raw) = true
        · rw [if_pos hmark]
          exact topHandle_inv _ _ h
        · rw [if_neg hmark]
          exact appendDesc_inv st k (clean raw) h
      | none => exact topHandle_inv st (clean raw) h

theorem initSt_inv : Inv initSt := by
  refine ⟨?_, ?_, ?_, ?_⟩
  · simp [InvRefs, topRefs, childRefs, initSt]
  · intro p s hp c hc
    simp [initSt] at hp
  · intro kv hkv
    simp [initSt] at hkv
  · intro s hs
    simp [initSt] at hs

theorem logan_foldl_inv (lines : List String) (st : LoganSt) (h : Inv st) :
    Inv (lines.foldl loganStep st) := by
  induction lines generalizing st with
  | nil => exact h
  | cons l ls ih => exact ih _ (loganStep_inv st l h)

/-! Counting the materialised tree: under the walk invariants every arena
slot contributes exactly one node to the section forest. -/

/-- Depth of the subtree below an arena index never exceeds this fuel. -/
theorem buildCond_fuel (slots : List CondSlot) :
    ∀ f1 f2 idx, slots.length - idx ≤ f1 → slots.length - idx ≤ f2 →
      buildCond slots f1 idx = buildCond slots f2 idx := by
  intro f1
  induction f1 with
  | zero =>
    intro f2 idx h1 h2
    have hnone : slots[idx]? = none := List.getElem?_eq_none (by omega)
    cases f2 with
    | zero => rfl
    | succ f2 => simp [buildCond, hnone]
  | succ f1 ih =>
    intro f2 idx h1 h2
    cases f2 with
    | zero =>
      have hnone : slots[idx]? = none := List.getElem?_eq_none (by omega)
      simp [buildCond, hnone]
    | succ f2 =>
      unfold buildCond
      cases hs : slots[idx]? with
      | none => rfl
      | some s =>
        dsimp only
        refine congrArg (Cond.mk s.number s.title s.description s.timing s.timingSource
          s.timingColumn s.timingInline s.material none) ?_
        apply List.map_congr_left
        intro c hc
        have hcf := List.of_mem_filter hc
        simp only [decide_eq_true_eq] at hcf
        exact ih f2 c (by omega) (by omega)

/-- Subtree node weight of an arena index. -/
def slotWeight (slots : List CondSlot) (j : Nat) : Nat :=
  condNodeCount (buildCond slots (slots.length - j) j)

/-- Children of an arena index (empty when out of range). -/
def childrenAt (slots : List CondSlot) (j : Nat) : List Nat :=
  match slots[j]? with
  | some s => s.children
  | none => []

theorem condListNodeCount_eq_sum (cs : List Cond) :
    condListNodeCount cs = (cs.map condNodeCount).sum := by
  induction cs with
  | nil => simp
  | cons c cs2 ih => simp [ih]

theorem slotWeight_eq (slots : List CondSlot) (hmono : InvMono slots) (j : Nat)
    (s : CondSlot) (hj : slots[j]? = some s) :
    slotWeight slots j = 1 + (s.children.map (slotWeight slots)).sum := by
  have hjlen : j < slots.length := by
    by_contra hc
    rw [List.getElem?_eq_none (by omega)] at hj
    cases hj
  have hfil : s.children.filter (fun c => decide (j < c ∧ c < slots.length)) = s.children :=
    List.filter_eq_self.mpr (fun c hc => by
      simp only [decide_eq_true_eq]
      exact hmono j s hj c hc)
  have key : buildCond slots (slots.length - j) j
      = Cond.mk s.number s.title s.description s.timing s.timingSource
          s.timingColumn s.timingInline s.material none
          (s.children.map (buildCond slots (slots.length - j - 1))) := by
    rw [show slots.length - j = (slots.length - j - 1) + 1 by omega]
    unfold buildCond
    rw [hj]
    dsimp only
    rw [hfil]
    rw [Nat.add_sub_cancel]
  unfold slotWeight
  rw [key]
  rw [condNodeCount_mk, condListNodeCount_eq_sum, List.map_map]
  congr 1
  refine congrArg List.sum (List.map_congr_left ?_)
  intro c hc
  have hb := hmono j s hj c hc
  simp only [Function.comp]
  rw [buildCond_fuel slots (slots.length - j - 1) (slots.length - c) c
    (by omega) (by omega)]

theorem weight_sum_aux (slots : List CondSlot) (hmono : InvMono slots) :
    ∀ ixs : List Nat, (∀ j ∈ ixs, j < slots.length) →
      (ixs.map (slotWeight slots)).sum
        = ixs.length + ((ixs.map (childrenAt slots)).flatten.map (slotWeight slots)).sum := by
  intro ixs
  induction ixs with
  | nil =>
    intro h
    simp
  | cons j tl ih =>
    intro h
    have hj : j < slots.length := h j (by simp)
    obtain ⟨s, hs⟩ : ∃ s, slots[j]? = some s := by
      rw [List.getElem?_eq_getElem hj]
      exact ⟨_, rfl⟩
    have hchild : childrenAt slots j = s.children := by
      unfold childrenAt
      rw [hs]
    have hw := slotWeight_eq slots hmono j s hs
    have htl := ih (fun x hx => h x (by simp [hx]))
    simp only [List.map_cons, List.sum_cons, List.flatten_cons, List.map_append,
      List.sum_append, List.length_cons]
    rw [hw, htl, hchild]
    omega

theorem childRefs_eq_range (slots : List CondSlot) :
    ((List.range slots.length).map (childrenAt slots)).flatten = childRefs slots := by
  induction slots with
  | nil => rfl
  | cons x xs ih =>
    have hsucc : ∀ j, childrenAt (x :: xs) (j + 1) = childrenAt xs j := by
      intro j
      unfold childrenAt
      rw [List.getElem?_cons_succ]
    rw [List.length_cons, List.range_succ_eq_map]
    rw [List.map_cons, List.flatten_cons]
    rw [List.map_map]
    have hmap : ((List.range xs.length).map (childrenAt (x :: xs) ∘ Nat.succ))
        = (List.range xs.length).map (childrenAt xs) :=
      List.map_congr_left (fun j _ => hsucc j)
    have h0 : childrenAt (x :: xs) 0 = x.children := by
      unfold childrenAt
      rw [List.getElem?_cons_zero]
    rw [hmap, ih, h0]
    rfl

theorem topRefs_weight_sum (st : LoganSt) (h : Inv st) :
    ((topRefs st.sections).map (slotWeight st.slots)).sum = st.slots.length := by
  obtain ⟨hrefs, hmono, hidx, hdot⟩ := h
  have hb := weight_sum_aux st.slots hmono (List.range st.slots.length)
    (fun j hj => List.mem_range.mp hj)
  rw [childRefs_eq_range] at hb
  have hm := congrArg (fun m : Multiset Nat => (m.map (slotWeight st.slots)).sum) hrefs
  simp only at hm
  rw [show Multiset.range st.slots.length
      = ((List.range st.slots.length : List Nat) : Multiset Nat) from rfl] at hm
  rw [Multiset.map_coe, Multiset.map_coe, Multiset.sum_coe, Multiset.sum_coe] at hm
  rw [List.map_append, List.sum_append] at hm
  rw [hb, List.length_range] at hm
  omega

theorem count_buildSections (slots : List CondSlot) (secs : List (String × List Nat)) :
    count_conditions (buildSections slots secs)
      = ((topRefs secs).map (slotWeight slots)).sum := by
  induction secs with
  | nil => rfl
  | cons sec rest ih =>
    show condListNodeCount (sec.2.map (buildCond slots slots.length))
        + count_conditions (buildSections slots rest) = _
    rw [ih, condListNodeCount_eq_sum, List.map_map]
    rw [show topRefs (sec :: rest) = sec.2 ++ topRefs rest from rfl]
    rw [List.map_append, List.sum_append]
    congr 1
    refine congrArg List.sum (List.map_congr_left ?_)
    intro r hr
    simp only [Function.comp]
    unfold slotWeight
    rw [buildCond_fuel slots slots.length (slots.length - r) r (by omega) (by omega)]

theorem dropEmptyUnsorted_topRefs (secs : List (String × List Nat)) :
    topRefs (dropEmptyUnsorted secs) = topRefs secs := by
  cases secs with
  | nil => rfl
  | cons s rest =>
    unfold dropEmptyUnsorted
    dsimp only
    by_cases hc : s.1 = "UNSORTED" ∧ (s :: rest).any (fun x => x.1 ≠ "UNSORTED") ∧ s.2.isEmpty
    · rw [if_pos hc]
      have h2 : s.2 = [] := by
        have h3 := hc.2.2
        simpa using h3
      rw [show topRefs (s :: rest) = s.2 ++ topRefs rest from rfl, h2]
      rfl
    · rw [if_neg hc]

/-! Counting the recognized condition lines of the walk: a section header
can never simultaneously match a condition pattern, because after the
digits and the first dot a condition number continues with a digit while
a section title starts after whitespace. -/

theorem condInlineM_shape (t : String) (pr : String × String)
    (h : condInlineM t = some pr) :
    ∃ rest, (t.data.takeWhile Char.isDigit).isEmpty = false ∧
      t.data.drop (t.data.takeWhile Char.isDigit).length = '.' :: rest ∧
      (rest.takeWhile Char.isDigit).isEmpty = false := by
  unfold condInlineM at h
  dsimp only at h
  split at h
  · simp at h
  · split at h
    · split at h
      · simp at h
      · split at h
        · rename_i h1 x1 rest heq1 h2 x2 nm r2 hseg
          exact ⟨rest, by simpa using h1, heq1, by simpa using h2⟩
        · simp at h
    · simp at h

theorem condNumOnlyM_shape (t : String) (num : String)
    (h : condNumOnlyM t = some num) :
    ∃ rest, (t.data.takeWhile Char.isDigit).isEmpty = false ∧
      t.data.drop (t.data.takeWhile Char.isDigit).length = '.' :: rest ∧
      (rest.takeWhile Char.isDigit).isEmpty = false := by
  unfold condNumOnlyM at h
  dsimp only at h
  split at h
  · simp at h
  · split at h
    · split at h
      · simp at h
      · split at h
        · rename_i h1 x1 rest heq1 h2 x2 nm hseg
          exact ⟨rest, by simpa using h1, heq1, by simpa using h2⟩
        · simp at h
    · simp at h

theorem sectionLineM_shape (t : String) (g : String × String)
    (h : sectionLineM t = some g) :
    ∃ rest, t.data.drop (t.data.takeWhile Char.isDigit).length = '.' :: rest ∧
      (rest.takeWhile isPySpace).isEmpty = false := by
  unfold sectionLineM at h
  dsimp only at h
  split at h
  · simp at h
  · split at h
    · split at h
      · simp at h
      · rename_i h1 x1 rest heq1 h2
        exact ⟨rest, heq1, by simpa using h2⟩
    · simp at h

theorem sectionLineM_none_of_head_digit (t : String) (rest : List Char)
    (_hne : (t.data.takeWhile Char.isDigit).isEmpty = false)
    (heq : t.data.drop (t.data.takeWhile Char.isDigit).length = '.' :: rest)
    (hd : (rest.takeWhile Char.isDigit).isEmpty = false) :
    sectionLineM t = none := by
  cases hv : sectionLineM t with
  | none => rfl
  | some g =>
    exfalso
    obtain ⟨r2, heq2, hsp⟩ := sectionLineM_shape t g hv
    rw [heq] at heq2
    injection heq2 with hh ht
    subst ht
    cases rest with
    | nil => simp at hd
    | cons c r3 =>
      by_cases hcd : c.isDigit = true
      · rw [List.takeWhile_cons_of_neg (by
          rw [not_space_of_digit_or_dot c (Or.inl hcd)]
          exact Bool.false_ne_true)] at hsp
        simp at hsp
      · rw [List.takeWhile_cons_of_neg (by simpa using hcd)] at hd
        simp at hd

theorem isMarkerLine_false (t : String) (h : isMarkerLine t = false) :
    sectionLineM t = none ∧ condInlineM t = none ∧ condNumOnlyM t = none := by
  unfold isMarkerLine at h
  simp only [Bool.or_eq_false_iff, decide_eq_false_iff_not, not_not] at h
  exact ⟨h.1.1, h.1.2, h.2⟩

theorem appendToLastSection_stopped (st : LoganSt) (n : Nat) :
    (appendToLastSection st n).stopped = st.stopped := by
  unfold appendToLastSection
  cases st.sections.getLast? <;> rfl

theorem attach_condition_slots_length (st : LoganSt) (n : Nat) (num : String) :
    (attach_condition st n num).slots.length = st.slots.length := by
  unfold attach_condition
  dsimp only
  by_cases hdot : num.data.contains '.' = true
  · rw [if_pos hdot]
    cases hlk : lookupIndex st.index (parentOf num) with
    | some p =>
      dsimp only
      exact slotAddChild_length st.slots p n
    | none =>
      dsimp only
      by_cases hse : st.sections.isEmpty = true
      · rw [if_pos hse, appendToLastSection_slots]
        rfl
      · rw [if_neg hse, appendToLastSection_slots]
  · rw [if_neg hdot]
    dsimp only
    by_cases hse : st.sections.isEmpty = true
    · rw [if_pos hse, appendToLastSection_slots]
      rfl
    · rw [if_neg hse, appendToLastSection_slots]

theorem attach_condition_stopped (st : LoganSt) (n : Nat) (num : String) :
    (attach_condition st n num).stopped = st.stopped := by
  unfold attach_condition
  dsimp only
  by_cases hdot : num.data.contains '.' = true
  · rw [if_pos hdot]
    cases hlk : lookupIndex st.index (parentOf num) with
    | some p => rfl
    | none =>
      dsimp only
      by_cases hse : st.sections.isEmpty = true
      · rw [if_pos hse, appendToLastSection_stopped]
        rfl
      · rw [if_neg hse, appendToLastSection_stopped]
  · rw [if_neg hdot]
    dsimp only
    by_cases hse : st.sections.isEmpty = true
    · rw [if_pos hse, appendToLastSection_stopped]
      rfl
    · rw [if_neg hse, appendToLastSection_stopped]

theorem createCondition_slots_length (st : LoganSt) (num title desc : String) :
    (createCondition st num title desc).slots.length = st.slots.length + 1 := by
  unfold createCondition
  dsimp only
  rw [attach_condition_slots_length]
  simp

theorem createCondition_stopped (st : LoganSt) (num title desc : String) :
    (createCondition st num title desc).stopped = st.stopped := by
  unfold createCondition
  dsimp only
  rw [attach_condition_stopped]

/-- A line whose cleaned form matches one of the condition patterns. -/
def isCondLine (l : String) : Bool :=
  (condInlineM (clean l)).isSome || (condNumOnlyM (clean l)).isSome

theorem topHandle_count (st : LoganSt) (t : String) (hstop : stopMatch t = false) :
    (topHandle st t).stopped = st.stopped ∧
    (topHandle st t).slots.length = st.slots.length +
      (if (condInlineM t).isSome || (condNumOnlyM t).isSome then 1 else 0) := by
  unfold topHandle
  dsimp only
  rw [if_neg (by rw [hstop]; exact Bool.false_ne_true)]
  cases hsec : sectionLineM t with
  | some g =>
    have hci : condInlineM t = none := by
      cases hci : condInlineM t with
      | none => rfl
      | some pr =>
        obtain ⟨rest, h1, h2, h3⟩ := condInlineM_shape t pr hci
        rw [sectionLineM_none_of_head_digit t rest h1 h2 h3] at hsec
        cases hsec
    have hcn : condNumOnlyM t = none := by
      cases hcn : condNumOnlyM t with
      | none => rfl
      | some num =>
        obtain ⟨rest, h1, h2, h3⟩ := condNumOnlyM_shape t num hcn
        rw [sectionLineM_none_of_head_digit t rest h1 h2 h3] at hsec
        cases hsec
    refine ⟨rfl, ?_⟩
    rw [if_neg (by simp [hci, hcn])]
    show st.slots.length = st.slots.length + 0
    omega
  | none =>
    cases hci : condInlineM t with
    | some pr =>
      obtain ⟨num, desc⟩ := pr
      refine ⟨?_, ?_⟩
      · rw [createCondition_stopped]
      · rw [createCondition_slots_length]
        rw [if_pos (by simp [hci])]
    | none =>
      cases hcn : condNumOnlyM t with
      | some num =>
        refine ⟨?_, ?_⟩
        · rw [createCondition_stopped]
        · rw [createCondition_slots_length]
          rw [if_pos (by simp [hcn])]
      | none =>
        refine ⟨rfl, ?_⟩
        rw [if_neg (by simp [hci, hcn])]
        show st.slots.length = st.slots.length + 0
        omega

theorem loganStep_count (st : LoganSt) (raw : String)
    (hstop : stopMatch (clean raw) = false) (hst : st.stopped = false) :
    (loganStep st raw).stopped = false ∧
    (loganStep st raw).slots.length
      = st.slots.length + (if isCondLine raw = true then 1 else 0) := by
  unfold loganStep
  rw [if_neg (by rw [hst]; exact Bool.false_ne_true)]
  dsimp only
  by_cases hblank : clean raw = ""
  · rw [if_pos hblank]
    refine ⟨hst, ?_⟩
    have hcl : isCondLine raw = false := by
      unfold isCondLine
      rw [hblank]
      rfl
    rw [hcl]
    rw [if_neg (by simp)]
    omega
  · rw [if_neg hblank]
    cases hact : st.active with
    | some k =>
      dsimp only
      by_cases hmark : isMarkerLine (clean raw) = true
      · rw [if_pos hmark]
        have h := topHandle_count { st with active := none } (clean raw) hstop
        unfold isCondLine
        exact ⟨by rw [h.1]; exact hst, h.2⟩
      · rw [if_neg hmark]
        obtain ⟨hs2, hci, hcn⟩ := isMarkerLine_false _ (by simpa using hmark)
        refine ⟨hst, ?_⟩
        have hcl : isCondLine raw = false := by
          unfold isCondLine
          rw [hci, hcn]
          rfl
        rw [hcl]
        rw [if_neg (by simp)]
        show (appendDesc st.slots k (clean raw)).length = st.slots.length + 0
        rw [appendDesc_length]
        omega
    | none =>
      have h := topHandle_count st (clean raw) hstop
      unfold isCondLine
      exact ⟨by rw [h.1]; exact hst, h.2⟩

theorem logan_foldl_count (lines : List String) :
    ∀ st : LoganSt, (∀ l ∈ lines, stopMatch (clean l) = false) → st.stopped = false →
      (lines.foldl loganStep st).slots.length
        = st.slots.length + (lines.filter (fun l => isCondLine l)).length := by
  induction lines with
  | nil =>
    intro st h hst
    simp
  | cons l ls ih =>
    intro st h hst
    have hstep := loganStep_count st l (h l (by simp)) hst
    have hrest := ih (loganStep st l) (fun x hx => h x (by simp [hx])) hstep.1
    rw [List.foldl_cons, hrest, hstep.2]
    by_cases hc : isCondLine l = true
    · rw [if_pos hc]
      rw [List.filter_cons_of_pos (by exact hc)]
      rw [List.length_cons]
      omega
    · rw [if_neg hc]
      rw [List.filter_cons_of_neg (by simpa using hc)]
      omega

theorem logan_cond_count (lines : List String)
    (hstop : ∀ l ∈ lines, stopMatch (clean l) = false) :
    (parse_conditions lines).2.length
      = (lines.filter (fun l => isCondLine l)).length := by
  unfold parse_conditions
  dsimp only
  rw [logan_foldl_count lines initSt hstop rfl]
  simp [initSt]

theorem logan_tree_count (lines : List String) :
    count_conditions (buildSections (parse_conditions lines).2 (parse_conditions lines).1)
      = (parse_conditions lines).2.length := by
  unfold parse_conditions
  dsimp only
  rw [count_buildSections, dropEmptyUnsorted_topRefs]
  exact topRefs_weight_sum (lines.foldl loganStep initSt) (logan_foldl_inv lines initSt initSt_inv)

/-! Collecting every node of the materialised forest, to state node-wise
invariants of the output. -/

mutual

/-- All nodes of a condition tree, the root included. -/
def condNodes : Cond → List Cond
  | .mk n t d ti ts tc tii m p cs => Cond.mk n t d ti ts tc tii m p cs :: condNodesList cs

/-- All nodes of a condition list. -/
def condNodesList : List Cond → List Cond
  | [] => []
  | c :: cs => condNodes c ++ condNodesList cs

end

/-- All nodes of a section forest. -/
def sectionNodes (secs : List Section) : List Cond :=
  (secs.map (fun s => condNodesList s.2)).flatten

theorem condNodesList_mem (c : Cond) : ∀ (l : List Cond),
    (c ∈ condNodesList l ↔ ∃ d ∈ l, c ∈ condNodes d) := by
  intro l
  induction l with
  | nil => simp [condNodesList]
  | cons d l2 ih =>
    rw [condNodesList]
    rw [List.mem_append, ih]
    constructor
    · intro h
      rcases h with h | ⟨d2, hd2, hc2⟩
      · exact ⟨d, by simp, h⟩
      · exact ⟨d2, by simp [hd2], hc2⟩
    · intro ⟨d2, hd2, hc2⟩
      rcases List.mem_cons.mp hd2 with hd2 | hd2
      · subst hd2
        exact Or.inl hc2
      · exact Or.inr ⟨d2, hd2, hc2⟩

theorem buildCond_nodes_dotted (slots : List CondSlot)
    (hdot : InvDotted slots) :
    ∀ (fuel idx : Nat), slots.length - idx ≤ fuel → idx < slots.length →
      ∀ c ∈ condNodes (buildCond slots fuel idx), isDottedNumber c.number = true := by
  intro fuel
  induction fuel with
  | zero =>
    intro idx hf hidx
    omega
  | succ n ih =>
    intro idx hf hidx c hc
    obtain ⟨s, hs⟩ : ∃ s, slots[idx]? = some s := by
      rw [List.getElem?_eq_getElem hidx]
      exact ⟨_, rfl⟩
    unfold buildCond at hc
    rw [hs] at hc
    dsimp only at hc
    rw [condNodes] at hc
    rcases List.mem_cons.mp hc with hc | hc
    · subst hc
      show isDottedNumber s.number = true
      exact hdot s (List.getElem?_mem hs)
    · obtain ⟨d, hd, hcd⟩ := (condNodesList_mem c _).mp hc
      obtain ⟨v, hv, hdv⟩ := List.mem_map.mp hd
      have hvf := List.of_mem_filter hv
      simp only [decide_eq_true_eq] at hvf
      subst hdv
      exact ih v (by omega) (by omega) c hcd

theorem topRefs_lt (st : LoganSt) (h : InvRefs st) (r : Nat)
    (hr : r ∈ topRefs st.sections) : r < st.slots.length := by
  have h2 : r ∈ ((topRefs st.sections ++ childRefs st.slots : List Nat) : Multiset Nat) := by
    rw [Multiset.mem_coe, List.mem_append]
    exact Or.inl hr
  rw [h] at h2
  simpa using h2

theorem sectionNodes_buildSections (slots : List CondSlot)
    (secs : List (String × List Nat)) (c : Cond)
    (hc : c ∈ sectionNodes (buildSections slots secs)) :
    ∃ r ∈ topRefs secs, c ∈ condNodes (buildCond slots slots.length r) := by
  unfold sectionNodes buildSections at hc
  rw [List.mem_flatten] at hc
  obtain ⟨l, hl, hcl⟩ := hc
  rw [List.map_map, List.mem_map] at hl
  obtain ⟨sec, hsec, hlsec⟩ := hl
  subst hlsec
  simp only [Function.comp] at hcl
  obtain ⟨d, hd, hcd⟩ := (condNodesList_mem c _).mp hcl
  obtain ⟨r, hr, hrd⟩ := List.mem_map.mp hd
  subst hrd
  refine ⟨r, ?_, hcd⟩
  unfold topRefs
  rw [List.mem_flatten]
  exact ⟨sec.2, List.mem_map.mpr ⟨sec, hsec, rfl⟩, hr⟩

theorem logan_nodes_dotted (lines : List String) (c : Cond)
    (hc : c ∈ sectionNodes
      (buildSections (parse_conditions lines).2 (parse_conditions lines).1)) :
    isDottedNumber c.number = true := by
  unfold parse_conditions at hc
  dsimp only at hc
  obtain ⟨hrefs, hmono, hidx, hdot⟩ := logan_foldl_inv lines initSt initSt_inv
  obtain ⟨r, hr, hcr⟩ := sectionNodes_buildSections _ _ c hc
  rw [dropEmptyUnsorted_topRefs] at hr
  have hrlt := topRefs_lt _ hrefs r hr
  exact buildCond_nodes_dotted _ hdot
    (lines.foldl loganStep initSt).slots.length r (by omega) hrlt c hcr

/-! Behaviour of the label extractor when nothing matches, and its
comparison with the resolution order the specification describes. -/

theorem find_value_none (lines : List String) (m : String → Option String) :
    ∀ k, (∀ l ∈ lines, m (clean l) = none) → find_value_after_label lines m k = "" := by
  induction lines with
  | nil =>
    intro k h
    cases k <;> rfl
  | cons l ls ih =>
    intro k h
    cases k with
    | zero => rfl
    | succ k2 =>
      unfold find_value_after_label
      dsimp only
      by_cases hb : clean l = ""
      · rw [if_pos hb]
        exact ih k2 (fun x hx => h x (by simp [hx]))
      · rw [if_neg hb]
        rw [h l (by simp)]
        exact ih k2 (fun x hx => h x (by simp [hx]))

/-- The field extractor exactly as the specification words it: on the
first matching line, a non-empty capture wins; otherwise a line with a
separator returns the trimmed text after the first separator even when
that text is empty; otherwise the next non-blank line is used. -/
def specFindLabeledValue : List String → (String → Option String) → Nat → String
  | _, _, 0 => ""
  | [], _, _ => ""
  | l :: ls, m, Nat.succ k =>
    let line := clean l
    if line = "" then specFindLabeledValue ls m k
    else
      match m line with
      | none => specFindLabeledValue ls m k
      | some g =>
        let val := clean g
        if val ≠ "" then val
        else if line.data.contains ':' then clean (String.mk (afterColon line.data))
        else clean (next_meaningful ls)

theorem find_value_colon_agree (lines : List String) (m : String → Option String) :
    ∀ k, (∀ l ∈ lines, (clean l).data.contains ':' = true →
        clean (String.mk (afterColon (clean l).data)) ≠ "") →
      find_value_after_label lines m k = specFindLabeledValue lines m k := by
  induction lines with
  | nil =>
    intro k h
    cases k <;> rfl
  | cons l ls ih =>
    intro k h
    cases k with
    | zero => rfl
    | succ k2 =>
      unfold find_value_after_label specFindLabeledValue
      dsimp only
      by_cases hb : clean l = ""
      · rw [if_pos hb, if_pos hb]
        exact ih k2 (fun x hx hc => h x (by simp [hx]) hc)
      · rw [if_neg hb, if_neg hb]
        cases hm : m (clean l) with
        | none => exact ih k2 (fun x hx hc => h x (by simp [hx]) hc)
        | some g =>
          dsimp only
          by_cases hv : clean g ≠ ""
          · rw [if_pos hv, if_pos hv]
          · rw [if_neg hv, if_neg hv]
            by_cases hc : (clean l).data.contains ':' = true
            · rw [if_pos hc, if_pos hc]
              rw [if_pos (h l (by simp) hc)]
            · rw [if_neg hc, if_neg hc]

/-! When no line is recognized, the walk produces nothing. -/

theorem loganStep_empty (st : LoganSt) (l : String)
    (hs : sectionLineM (clean l) = none) (hc1 : condInlineM (clean l) = none)
    (hc2 : condNumOnlyM (clean l) = none)
    (h : st.sections = [] ∧ st.slots = [] ∧ st.active = none) :
    (loganStep st l).sections = [] ∧ (loganStep st l).slots = [] ∧
      (loganStep st l).active = none := by
  obtain ⟨h1, h2, h3⟩ := h
  unfold loganStep
  by_cases hstop : st.stopped = true
  · rw [if_pos hstop]
    exact ⟨h1, h2, h3⟩
  · rw [if_neg hstop]
    dsimp only
    by_cases hblank : clean l = ""
    · rw [if_pos hblank]
      exact ⟨h1, h2, h3⟩
    · rw [if_neg hblank]
      rw [h3]
      unfold topHandle
      dsimp only
      by_cases hst2 : stopMatch (clean l) = true
      · rw [if_pos hst2]
        exact ⟨h1, h2, h3⟩
      · rw [if_neg hst2]
        rw [hs, hc1, hc2]
        exact ⟨h1, h2, h3⟩

theorem logan_foldl_empty (lines : List String)
    (h : ∀ l ∈ lines, sectionLineM (clean l) = none ∧ condInlineM (clean l) = none ∧
      condNumOnlyM (clean l) = none) :
    ∀ st : LoganSt, st.sections = [] ∧ st.slots = [] ∧ st.active = none →
      (lines.foldl loganStep st).sections = [] ∧ (lines.foldl loganStep st).slots = [] ∧
        (lines.foldl loganStep st).active = none := by
  induction lines with
  | nil =>
    intro st hst
    exact hst
  | cons l ls ih =>
    intro st hst
    have h1 := h l (by simp)
    exact ih (fun x hx => h x (by simp [hx])) _
      (loganStep_empty st l h1.1 h1.2.1 h1.2.2 hst)

/-! The orphan path of the attach helper: an unindexed parent leaves the
new condition as a top-level entry of the current (possibly freshly
opened) section, and the slot itself is always appended to the arena. -/

theorem logan_orphan (st : LoganSt) (num title desc : String)
    (hnum : isDottedNumber num = true)
    (hlk : lookupIndex st.index (parentOf num) = none) :
    ∃ secs0 t refs,
      (createCondition st num title desc).sections
        = secs0 ++ [(t, refs ++ [st.slots.length])] ∧
      (createCondition st num title desc).slots
        = st.slots ++ [new_condition num title desc] := by
  have hslotnum : (new_condition num title desc).number = num := by
    unfold new_condition
    exact clean_dotted num.data hnum
  unfold createCondition
  dsimp only
  rw [show (new_condition num title desc).number = num from hslotnum]
  unfold attach_condition
  dsimp only
  rw [if_pos (by exact dotted_contains_dot num hnum)]
  rw [lookupIndex_cons_ne st.index num st.slots.length (parentOf num)
    (parentOf_ne num (dotted_contains_dot num hnum))]
  rw [hlk]
  dsimp only
  by_cases hse : st.sections.isEmpty = true
  · rw [if_pos hse]
    refine ⟨st.sections, clean ("UNSORTED"), [], ?_, ?_⟩
    · unfold appendToLastSection
      rw [show (ensureSection { st with
          slots := st.slots ++ [new_condition num title desc],
          index := (num, st.slots.length) :: st.index } ("UNSORTED")).sections
        = st.sections ++ [(clean ("UNSORTED"), ([] : List Nat))] from rfl]
      rw [show (st.sections ++ [(clean ("UNSORTED"), ([] : List Nat))]).getLast?
        = some (clean ("UNSORTED"), ([] : List Nat)) by simp]
      dsimp only
      rw [show (st.sections ++ [(clean ("UNSORTED"), ([] : List Nat))]).dropLast
        = st.sections by simp]
    · rw [appendToLastSection_slots]
      rfl
  · cases hlast : st.sections.getLast? with
    | none =>
      exfalso
      rw [List.getLast?_eq_none_iff] at hlast
      exact hse (by simp [hlast])
    | some sec =>
      rw [if_neg hse]
      refine ⟨st.sections.dropLast, sec.1, sec.2, ?_, ?_⟩
      · unfold appendToLastSection
        rw [show ({ st with
            slots := st.slots ++ [new_condition num title desc],
            index := (num, st.slots.length) :: st.index } : LoganSt).sections
          = st.sections from rfl]
        rw [hlast]
      · rw [appendToLastSection_slots]


end Logan

namespace Bcc

/-! A bold run matching nothing, outside a timing-heading position,
leaves the walk state unchanged. -/

theorem bccStep_skip (st : BccSt) (b : BoldRun)
    (hm : condMatch (clean b.text) = none) (ht : b.nextTableTiming = false) :
    bccStep st b = st := by
  unfold bccStep
  dsimp only
  by_cases hb : clean b.text = ""
  · rw [if_pos hb]
  · rw [if_neg hb, hm]
    dsimp only
    rw [ht]
    rw [if_neg (by simp)]

theorem bcc_foldl_skip (bolds : List BoldRun)
    (h : ∀ b ∈ bolds, condMatch (clean b.text) = none ∧ b.nextTableTiming = false) :
    ∀ st : BccSt, bolds.foldl bccStep st = st := by
  induction bolds with
  | nil =>
    intro st
    rfl
  | cons b bs ih =>
    intro st
    rw [List.foldl_cons, bccStep_skip st b (h b (by simp)).1 (h b (by simp)).2]
    exact ih (fun x hx => h x (by simp [hx])) st

theorem bcc_parse_empty (bolds : List BoldRun)
    (h : ∀ b ∈ bolds, condMatch (clean b.text) = none ∧ b.nextTableTiming = false) :
    parse_conditions bolds = ([], 0) := by
  unfold parse_conditions
  rw [bcc_foldl_skip bolds h initSt]
  rfl

/-! The two attachment scenarios of the specification, over arbitrary
table rows with at least two cells. -/

theorem bcc_scenario_orphan (r : BccRow) (h : 2 ≤ r.numCells) :
    parse_conditions [⟨"8(a) Fencing", some r, false⟩]
      = ([("General", [condOfRow r "8" "(a)" "Fencing" none])], 1) := by
  unfold parse_conditions
  rw [List.foldl_cons, List.foldl_nil]
  have e1 : bccStep initSt ⟨"8(a) Fencing", some r, false⟩
      = (⟨[], "General", [condOfRow r "8" "(a)" "Fencing" none], 1⟩ : BccSt) := by
    unfold bccStep
    dsimp only
    rw [if_neg (by decide : ¬(clean ("8(a) Fencing") = ""))]
    rw [show condMatch (clean ("8(a) Fencing")) = some ("8", "(a)", "Fencing") from by decide]
    dsimp only
    rw [if_neg (by omega : ¬(r.numCells < 2))]
    rw [if_pos (by decide : lowerStr ("(a)") ≠ "")]
    rw [show attachSub initSt "8" (condOfRow r "8" "(a)" "Fencing" (some "8")) = none
      from rfl]
    rfl
  rw [e1]
  rfl

theorem bcc_scenario_nested (r1 r2 r3 : BccRow) (h1 : 2 ≤ r1.numCells)
    (h2 : 2 ≤ r2.numCells) (h3 : 2 ≤ r3.numCells) :
    parse_conditions [⟨"8) Alpha", some r1, false⟩, ⟨"8(a) Beta", some r2, false⟩,
        ⟨"8(b) Gamma", some r3, false⟩]
      = ([("General", [((condOfRow r1 "8" "" "Alpha" none).addChild
            (condOfRow r2 "8" "(a)" "Beta" (some "8"))).addChild
            (condOfRow r3 "8" "(b)" "Gamma" (some "8"))])], 3) := by
  unfold parse_conditions
  rw [List.foldl_cons, List.foldl_cons, List.foldl_cons, List.foldl_nil]
  have e1 : bccStep initSt ⟨"8) Alpha", some r1, false⟩
      = (⟨[], "General", [condOfRow r1 "8" "" "Alpha" none], 1⟩ : BccSt) := by
    unfold bccStep
    dsimp only
    rw [if_neg (by decide : ¬(clean ("8) Alpha") = ""))]
    rw [show condMatch (clean ("8) Alpha")) = some ("8", "", "Alpha") from by decide]
    dsimp only
    rw [if_neg (by omega : ¬(r1.numCells < 2))]
    rw [if_neg (by decide : ¬(lowerStr ("") ≠ ""))]
    rfl
  rw [e1]
  have e2 : bccStep (⟨[], "General", [condOfRow r1 "8" "" "Alpha" none], 1⟩ : BccSt)
        ⟨"8(a) Beta", some r2, false⟩
      = (⟨[], "General", [(condOfRow r1 "8" "" "Alpha" none).addChild
            (condOfRow r2 "8" "(a)" "Beta" (some "8"))], 2⟩ : BccSt) := by
    unfold bccStep
    dsimp only
    rw [if_neg (by decide : ¬(clean ("8(a) Beta") = ""))]
    rw [show condMatch (clean ("8(a) Beta")) = some ("8", "(a)", "Beta") from by decide]
    dsimp only
    rw [if_neg (by omega : ¬(r2.numCells < 2))]
    rw [if_pos (by decide : lowerStr ("(a)") ≠ "")]
    rw [show attachSub (⟨[], "General", [condOfRow r1 "8" "" "Alpha" none], 1⟩ : BccSt) "8"
        (condOfRow r2 "8" "(a)" "Beta" (some "8"))
      = some (⟨[], "General", [(condOfRow r1 "8" "" "Alpha" none).addChild
            (condOfRow r2 "8" "(a)" "Beta" (some "8"))], 1⟩ : BccSt) from rfl]
  rw [e2]
  have e3 : bccStep (⟨[], "General", [(condOfRow r1 "8" "" "Alpha" none).addChild
          (condOfRow r2 "8" "(a)" "Beta" (some "8"))], 2⟩ : BccSt)
        ⟨"8(b) Gamma", some r3, false⟩
      = (⟨[], "General", [((condOfRow r1 "8" "" "Alpha" none).addChild
            (condOfRow r2 "8" "(a)" "Beta" (some "8"))).addChild
            (condOfRow r3 "8" "(b)" "Gamma" (some "8"))], 3⟩ : BccSt) := by
    unfold bccStep
    dsimp only
    rw [if_neg (by decide : ¬(clean ("8(b) Gamma") = ""))]
    rw [show condMatch (clean ("8(b) Gamma")) = some ("8", "(b)", "Gamma") from by decide]
    dsimp only
    rw [if_neg (by omega : ¬(r3.numCells < 2))]
    rw [if_pos (by decide : lowerStr ("(b)") ≠ "")]
    rw [show attachSub (⟨[], "General", [(condOfRow r1 "8" "" "Alpha" none).addChild
          (condOfRow r2 "8" "(a)" "Beta" (some "8"))], 2⟩ : BccSt) "8"
        (condOfRow r3 "8" "(b)" "Gamma" (some "8"))
      = some (⟨[], "General", [((condOfRow r1 "8" "" "Alpha" none).addChild
            (condOfRow r2 "8" "(a)" "Beta" (some "8"))).addChild
            (condOfRow r3 "8" "(b)" "Gamma" (some "8"))], 2⟩ : BccSt) from rfl]
  rw [e3]
  rfl

/-! Timing resolution of a built condition, in the precedence structure
the specification describes. -/

theorem condOfRow_timing (row : BccRow) (baseNum sfx titleRaw : String)
    (parent : Option String) :
    ((clean row.timingCell ≠ "" ∧ lowerStr (clean row.timingCell) ≠ "as indicated") →
      (condOfRow row baseNum sfx titleRaw parent).timing = clean row.timingCell ∧
      (condOfRow row baseNum sfx titleRaw parent).timingSource = "column") ∧
    ((clean row.timingCell = "" ∨ lowerStr (clean row.timingCell) = "as indicated") →
      ((condOfRow row baseNum sfx titleRaw parent).timingInline ≠ "" →
        (condOfRow row baseNum sfx titleRaw parent).timing
          = (condOfRow row baseNum sfx titleRaw parent).timingInline ∧
        (condOfRow row baseNum sfx titleRaw parent).timingSource = "inline") ∧
      ((condOfRow row baseNum sfx titleRaw parent).timingInline = "" →
        (condOfRow row baseNum sfx titleRaw parent).timing = clean row.timingCell ∧
        (condOfRow row baseNum sfx titleRaw parent).timingSource = "column")) := by
  unfold condOfRow
  dsimp only
  set col := clean row.timingCell with hcol
  set I := String.mk
    (extract_inline_timing (extract_proof_of_fulfilment row.descExclBold.data).1).2 with hI
  unfold resolveTiming
  by_cases hc : I ≠ "" ∧ (lowerStr col = "as indicated" ∨ col = "")
  · rw [if_pos hc]
    dsimp only
    constructor
    · intro h
      exfalso
      rcases hc.2 with h2 | h2
      · exact h.2 h2
      · exact h.1 h2
    · intro h
      constructor
      · intro hI2
        exact ⟨rfl, rfl⟩
      · intro hI2
        exact absurd hI2 hc.1
  · rw [if_neg hc]
    dsimp only
    constructor
    · intro h
      exact ⟨rfl, rfl⟩
    · intro h
      constructor
      · intro hI2
        exfalso
        rcases h with h | h
        · exact hc ⟨hI2, Or.inr h⟩
        · exact hc ⟨hI2, Or.inl h⟩
      · intro hI2
        exact ⟨rfl, rfl⟩

/-! Isolation of the fulfilment-proof block: when the raw description
carries a marker and the text before the marker has no inline timing
phrase, the material holds the block with its own timing while the
condition keeps an empty inline timing. -/

theorem condOfRow_proof_isolated (row : BccRow) (baseNum sfx titleRaw : String)
    (parent : Option String) (pre post : List Char)
    (hsplit : findPofSplit row.descExclBold.data = some (pre, post))
    (hnotim : findTimingSplit (cleanL pre) = none) :
    (condOfRow row baseNum sfx titleRaw parent).material
      = some ⟨true, String.mk (extract_inline_timing (cleanL post)).1,
          String.mk (extract_inline_timing (cleanL post)).2⟩ ∧
    (condOfRow row baseNum sfx titleRaw parent).description = String.mk (cleanL pre) ∧
    (condOfRow row baseNum sfx titleRaw parent).timingInline = "" := by
  unfold condOfRow
  dsimp only
  unfold extract_proof_of_fulfilment
  rw [hsplit]
  dsimp only
  rw [show extract_inline_timing (cleanL pre) = (cleanL pre, []) from by
    unfold extract_inline_timing
    rw [hnotim]]
  exact ⟨rfl, rfl, rfl⟩

end Bcc

/-! Prepared-by always comes from the text left of the first pipe. -/

theorem prepared_by_left_of_pipe (s : String) (h : s.data.contains '|' = true) :
    (extract_revision_and_prepared_by s).2
      = clean (String.mk (s.data.takeWhile (fun c => c ≠ '|'))) ∨
    (extract_revision_and_prepared_by s).2 = "" := by
  unfold extract_revision_and_prepared_by
  dsimp only
  rw [if_pos h]
  by_cases hg : clean (String.mk (s.data.takeWhile (fun c => c ≠ '|'))) ≠ "" ∧
      (clean (String.mk (s.data.takeWhile (fun c => c ≠ '|')))).length ≤ 60
  · rw [if_pos hg]
    exact Or.inl rfl
  · rw [if_neg hg]
    exact Or.inr rfl

/-! The claim theorems. -/

/-- Claim C1, corrected.  The no-loss invariant does not hold for every
matched condition pattern: a matched BCC bold run outside a two-cell
table row is dropped.  Amended: the BCC tree holds exactly one node per
accepted bold run (matched pattern and a surrounding row with at least
two cells), and the Logan tree holds exactly one node per line matching a
condition pattern provided no stop line appears. -/
theorem claim_C1 :
    (∀ bolds : List Bcc.BoldRun,
      count_conditions (Bcc.parse_conditions bolds).1 = Bcc.validBoldCount bolds) ∧
    (∀ lines : List String, (∀ l ∈ lines, Logan.stopMatch (clean l) = false) →
      count_conditions
          (Logan.buildSections (Logan.parse_conditions lines).2
            (Logan.parse_conditions lines).1)
        = (lines.filter (fun l => Logan.isCondLine l)).length) := by
  constructor
  · exact Bcc.bcc_tree_count_eq_valid
  · intro lines h
    rw [Logan.logan_tree_count, Logan.logan_cond_count lines h]

/-- Witness for C1 at a one-condition input of each adapter. -/
theorem claim_C1_witness :
    count_conditions (Bcc.parse_conditions [⟨"8(a) Fencing", some ⟨2, "d", "t"⟩, false⟩]).1
        = Bcc.validBoldCount [⟨"8(a) Fencing", some ⟨2, "d", "t"⟩, false⟩] ∧
    ((∀ l ∈ ["2.1. Do the thing"], Logan.stopMatch (clean l) = false) ∧
      count_conditions
          (Logan.buildSections (Logan.parse_conditions ["2.1. Do the thing"]).2
            (Logan.parse_conditions ["2.1. Do the thing"]).1)
        = ((["2.1. Do the thing"]).filter (fun l => Logan.isCondLine l)).length) :=
  ⟨claim_C1.1 _, by decide, claim_C1.2 ["2.1. Do the thing"] (by decide)⟩

/-- Counterexample to C1 as stated: one bold run matches the condition
pattern, yet the tree is empty because the run has no table row. -/
theorem claim_C1_cx :
    Bcc.matchedBoldCount [⟨"1) Ensure landscaping", none, false⟩] = 1 ∧
    count_conditions (Bcc.parse_conditions [⟨"1) Ensure landscaping", none, false⟩]).1
      = 0 := by
  constructor
  · rfl
  · rfl

/-- Claim C2, confirmed.  Both adapters report a summary count equal to
the full-traversal node count of the returned section tree. -/
theorem claim_C2 :
    (∀ doc : Bcc.BccDoc,
      (Bcc.parse_bcc_conditions_html doc).numberOfConditions
        = count_conditions (Bcc.parse_bcc_conditions_html doc).sections) ∧
    (∀ rawLines : List String,
      (Logan.parse_logan_conditions_pdf rawLines).numberOfConditions
        = count_conditions (Logan.parse_logan_conditions_pdf rawLines).sections) := by
  constructor
  · intro doc
    exact Bcc.bcc_counter_eq_tree_count doc.bolds
  · intro rawLines
    rfl

/-- Claim C3, confirmed.  An orphan subcondition (letter-suffixed before
its base in BCC, dotted with an unindexed parent in Logan) is kept as a
standalone top-level entry of the current section. -/
theorem claim_C3 :
    (∀ r : Bcc.BccRow, 2 ≤ r.numCells →
      (Bcc.parse_conditions [⟨"8(a) Fencing", some r, false⟩]).1.map
          (fun s => (s.1, s.2.map (fun c => (c.number, c.parentNumber, c.children.length))))
        = [("General", [("8(a)", none, 0)])] ∧
      (Bcc.parse_conditions [⟨"8(a) Fencing", some r, false⟩]).2 = 1) ∧
    (∀ (st : Logan.LoganSt) (num title desc : String),
      Logan.isDottedNumber num = true →
      Logan.lookupIndex st.index (Logan.parentOf num) = none →
      ∃ secs0 t refs,
        (Logan.createCondition st num title desc).sections
          = secs0 ++ [(t, refs ++ [st.slots.length])] ∧
        (Logan.createCondition st num title desc).slots
          = st.slots ++ [Logan.new_condition num title desc]) := by
  constructor
  · intro r h
    rw [Bcc.bcc_scenario_orphan r h]
    exact ⟨rfl, rfl⟩
  · intro st num title desc hnum hlk
    exact Logan.logan_orphan st num title desc hnum hlk

/-- Witness for C3 at a two-cell row and at the initial Logan state. -/
theorem claim_C3_witness :
    ((Bcc.parse_conditions [⟨"8(a) Fencing", some ⟨2, "d", "t"⟩, false⟩]).1.map
          (fun s => (s.1, s.2.map (fun c => (c.number, c.parentNumber, c.children.length))))
        = [("General", [("8(a)", none, 0)])] ∧
      (Bcc.parse_conditions [⟨"8(a) Fencing", some ⟨2, "d", "t"⟩, false⟩]).2 = 1) ∧
    (Logan.isDottedNumber "2.1" = true ∧
      Logan.lookupIndex Logan.initSt.index (Logan.parentOf "2.1") = none ∧
      ∃ secs0 t refs,
        (Logan.createCondition Logan.initSt "2.1" "T" "D").sections
          = secs0 ++ [(t, refs ++ [Logan.initSt.slots.length])] ∧
        (Logan.createCondition Logan.initSt "2.1" "T" "D").slots
          = Logan.initSt.slots ++ [Logan.new_condition "2.1" "T" "D"]) :=
  ⟨claim_C3.1 ⟨2, "d", "t"⟩ (by decide),
   by decide, by decide,
   claim_C3.2 Logan.initSt "2.1" "T" "D" (by decide) (by decide)⟩

/-- Claim C4, corrected.  The BCC adapter attaches later-suffixed
conditions under the base condition in order with a parentNumber
back-reference; the Logan adapter attaches children but never writes a
parentNumber (see the counterexample), so the back-reference conjunct of
the claim holds only for BCC. -/
theorem claim_C4 (r1 r2 r3 : Bcc.BccRow) (h1 : 2 ≤ r1.numCells)
    (h2 : 2 ≤ r2.numCells) (h3 : 2 ≤ r3.numCells) :
    (Bcc.parse_conditions [⟨"8) Alpha", some r1, false⟩, ⟨"8(a) Beta", some r2, false⟩,
        ⟨"8(b) Gamma", some r3, false⟩]).1.map
        (fun s => (s.1, s.2.map (fun c => (c.number, c.children.map
          (fun d => (d.number, d.parentNumber))))))
      = [("General", [("8", [("8(a)", some "8"), ("8(b)", some "8")])])] := by
  rw [Bcc.bcc_scenario_nested r1 r2 r3 h1 h2 h3]
  rfl

/-- Witness for C4 at two-cell rows. -/
theorem claim_C4_witness :
    (Bcc.parse_conditions [⟨"8) Alpha", some ⟨2, "a", "b"⟩, false⟩,
        ⟨"8(a) Beta", some ⟨3, "c", "d"⟩, false⟩,
        ⟨"8(b) Gamma", some ⟨2, "e", "f"⟩, false⟩]).1.map
        (fun s => (s.1, s.2.map (fun c => (c.number, c.children.map
          (fun d => (d.number, d.parentNumber))))))
      = [("General", [("8", [("8(a)", some "8"), ("8(b)", some "8")])])] :=
  claim_C4 ⟨2, "a", "b"⟩ ⟨3, "c", "d"⟩ ⟨2, "e", "f"⟩ (by decide) (by decide) (by decide)

/-- Counterexample to the parentNumber conjunct of C4: the Logan adapter
attaches "2.1.1" under "2.1" with no parentNumber back-reference. -/
theorem claim_C4_cx :
    (Logan.parse_logan_conditions_pdf ["1. SEC A", "2.1. A", "2.1.1. B"]).sections.map
        (fun s => (s.1, s.2.map (fun c => (c.number, c.children.map
          (fun d => (d.number, d.parentNumber))))))
      = [("1. SEC A", [("2.1", [("2.1.1", none)])])] := by
  rfl

/-- Claim C5, corrected.  A non-empty non-placeholder column value wins
with source column, otherwise a non-empty inline phrase is promoted with
source inline; but in the remaining case the timing is the column value
verbatim and the source stays column (the specification predicted empty
timing and empty source). -/
theorem claim_C5 (row : Bcc.BccRow) (baseNum sfx titleRaw : String)
    (parent : Option String) :
    ((clean row.timingCell ≠ "" ∧ lowerStr (clean row.timingCell) ≠ "as indicated") →
      (Bcc.condOfRow row baseNum sfx titleRaw parent).timing = clean row.timingCell ∧
      (Bcc.condOfRow row baseNum sfx titleRaw parent).timingSource = "column") ∧
    ((clean row.timingCell = "" ∨ lowerStr (clean row.timingCell) = "as indicated") →
      ((Bcc.condOfRow row baseNum sfx titleRaw parent).timingInline ≠ "" →
        (Bcc.condOfRow row baseNum sfx titleRaw parent).timing
          = (Bcc.condOfRow row baseNum sfx titleRaw parent).timingInline ∧
        (Bcc.condOfRow row baseNum sfx titleRaw parent).timingSource = "inline") ∧
      ((Bcc.condOfRow row baseNum sfx titleRaw parent).timingInline = "" →
        (Bcc.condOfRow row baseNum sfx titleRaw parent).timing = clean row.timingCell ∧
        (Bcc.condOfRow row baseNum sfx titleRaw parent).timingSource = "column")) :=
  Bcc.condOfRow_timing row baseNum sfx titleRaw parent

/-- Witness for C5 at a row with a substantive column value. -/
theorem claim_C5_witness :
    ((clean (⟨2, "", "Prior to building approval"⟩ : Bcc.BccRow).timingCell ≠ "" ∧
        lowerStr (clean (⟨2, "", "Prior to building approval"⟩ : Bcc.BccRow).timingCell)
          ≠ "as indicated") ∧
      (Bcc.condOfRow ⟨2, "", "Prior to building approval"⟩ "8" "" "T" none).timing
          = clean (⟨2, "", "Prior to building approval"⟩ : Bcc.BccRow).timingCell ∧
      (Bcc.condOfRow ⟨2, "", "Prior to building approval"⟩ "8" "" "T" none).timingSource
          = "column") :=
  ⟨by decide, (claim_C5 ⟨2, "", "Prior to building approval"⟩ "8" "" "T" none).1 (by decide)⟩

/-- Counterexample to the final clause of C5: with an empty column and no
inline phrase, the source is reported as column, not as empty. -/
theorem claim_C5_cx :
    (Bcc.condOfRow ⟨2, "", ""⟩ "8" "" "T" none).timing = "" ∧
    (Bcc.condOfRow ⟨2, "", ""⟩ "8" "" "T" none).timingSource = "column" := by
  constructor
  · rfl
  · rfl

/-- Claim C6, confirmed.  The fulfilment-proof block is split off before
inline-timing extraction: the material carries the block and its own
trailing timing phrase, the description keeps only the text before the
marker, and a timing phrase nested in the block never becomes the
condition timing; the concrete example of the specification evaluates as
promised. -/
theorem claim_C6 :
    (∀ (row : Bcc.BccRow) (baseNum sfx titleRaw : String) (parent : Option String)
        (pre post : List Char),
      findPofSplit row.descExclBold.data = some (pre, post) →
      findTimingSplit (cleanL pre) = none →
      (Bcc.condOfRow row baseNum sfx titleRaw parent).material
        = some ⟨true, String.mk (extract_inline_timing (cleanL post)).1,
            String.mk (extract_inline_timing (cleanL post)).2⟩ ∧
      (Bcc.condOfRow row baseNum sfx titleRaw parent).description = String.mk (cleanL pre) ∧
      (Bcc.condOfRow row baseNum sfx titleRaw parent).timingInline = "") ∧
    extract_proof_of_fulfilment
        ("Install fence. PROOF OF FULFILMENT Submit certificate to Council. Timing: within 30 days").data
      = (("Install fence.").data,
         some ⟨true, "Submit certificate to Council.", "within 30 days"⟩) := by
  constructor
  · intro row baseNum sfx titleRaw parent pre post hsplit hnotim
    exact Bcc.condOfRow_proof_isolated row baseNum sfx titleRaw parent pre post hsplit hnotim
  · rfl

/-- Witness for C6 at a concrete description with a proof block. -/
theorem claim_C6_witness :
    (findPofSplit
        ((⟨2, "Fix it. PROOF OF FULFILMENT Cert required. Timing: soon", ""⟩ :
          Bcc.BccRow).descExclBold.data)
        = some ((("Fix it. ").data), ((" Cert required. Timing: soon").data)) ∧
      findTimingSplit (cleanL (("Fix it. ").data)) = none) ∧
    ((Bcc.condOfRow ⟨2, "Fix it. PROOF OF FULFILMENT Cert required. Timing: soon", ""⟩
          "8" "" "T" none).material
        = some ⟨true,
            String.mk (extract_inline_timing (cleanL ((" Cert required. Timing: soon").data))).1,
            String.mk (extract_inline_timing (cleanL ((" Cert required. Timing: soon").data))).2⟩ ∧
      (Bcc.condOfRow ⟨2, "Fix it. PROOF OF FULFILMENT Cert required. Timing: soon", ""⟩
          "8" "" "T" none).description = String.mk (cleanL (("Fix it. ").data)) ∧
      (Bcc.condOfRow ⟨2, "Fix it. PROOF OF FULFILMENT Cert required. Timing: soon", ""⟩
          "8" "" "T" none).timingInline = "") :=
  ⟨⟨by decide, by decide⟩,
   claim_C6.1 ⟨2, "Fix it. PROOF OF FULFILMENT Cert required. Timing: soon", ""⟩
     "8" "" "T" none (("Fix it. ").data) ((" Cert required. Timing: soon").data)
     (by decide) (by decide)⟩

/-- Claim C7, corrected.  The revision token is extracted as specified,
but prepared-by is the cleaned text LEFT of the first pipe (subject to
the non-empty and length guards), not the text after it: the
specification example yields preparedBy DA-101 Rev B. -/
theorem claim_C7 :
    extract_revision_and_prepared_by ("DA-101 Rev B | ACME Architects")
      = ("Rev B", "DA-101 Rev B") ∧
    (∀ s : String, s.data.contains '|' = true →
      (extract_revision_and_prepared_by s).2
          = clean (String.mk (s.data.takeWhile (fun c => c ≠ '|'))) ∨
      (extract_revision_and_prepared_by s).2 = "") := by
  constructor
  · rfl
  · exact prepared_by_left_of_pipe

/-- Witness for C7 at a short pipe-split field. -/
theorem claim_C7_witness :
    ("DWG-7 | Smith").data.contains '|' = true ∧
    ((extract_revision_and_prepared_by ("DWG-7 | Smith")).2
        = clean (String.mk (("DWG-7 | Smith").data.takeWhile (fun c => c ≠ '|'))) ∨
      (extract_revision_and_prepared_by ("DWG-7 | Smith")).2 = "") :=
  ⟨by decide, claim_C7.2 ("DWG-7 | Smith") (by decide)⟩

/-- Counterexample to C7 as stated: the specification example does not
yield ACME Architects as prepared-by. -/
theorem claim_C7_cx :
    (extract_revision_and_prepared_by ("DA-101 Rev B | ACME Architects")).2
      ≠ "ACME Architects" := by
  decide

/-- Claim C8, corrected.  The stated resolution order differs from the
code when the matched line contains a separator with nothing after it:
the code then falls through to the next non-blank line instead of
returning the empty after-separator text.  Amended: on inputs whose
cleaned lines never carry an empty after-separator tail, the extractor
follows exactly the specified order. -/
theorem claim_C8 (lines : List String) (m : String → Option String) (k : Nat)
    (h : ∀ l ∈ lines, (clean l).data.contains ':' = true →
      clean (String.mk (Logan.afterColon (clean l).data)) ≠ "") :
    Logan.find_value_after_label lines m k = Logan.specFindLabeledValue lines m k :=
  Logan.find_value_colon_agree lines m k h

/-- Witness for C8 at a one-line labelled input. -/
theorem claim_C8_witness :
    (∀ l ∈ ["APPLICANT: JOHN"], (clean l).data.contains ':' = true →
      clean (String.mk (Logan.afterColon (clean l).data)) ≠ "") ∧
    Logan.find_value_after_label ["APPLICANT: JOHN"] Logan.applicantM 3
      = Logan.specFindLabeledValue ["APPLICANT: JOHN"] Logan.applicantM 3 :=
  ⟨by decide, claim_C8 ["APPLICANT: JOHN"] Logan.applicantM 3 (by decide)⟩

/-- Counterexample to C8 as stated: a label line ending in a bare
separator makes the code take the next non-blank line while the
specified order returns the empty after-separator text. -/
theorem claim_C8_cx :
    Logan.find_value_after_label ["APPLICANT:", "JOHN"] Logan.applicantM 120 = "JOHN" ∧
    Logan.specFindLabeledValue ["APPLICANT:", "JOHN"] Logan.applicantM 120 = "" := by
  constructor
  · rfl
  · rfl

/-- Claim C9, corrected.  With nothing recognized both adapters return
zero sections and a zero count without error, and the Logan header fields
all come back as empty strings; but the BCC adapter returns an empty
application-details mapping with no header keys at all when its marker is
absent (see the counterexample), rather than header fields holding empty
strings. -/
theorem claim_C9 :
    (∀ bolds : List Bcc.BoldRun,
      (∀ b ∈ bolds, condMatch (clean b.text) = none ∧ b.nextTableTiming = false) →
      (Bcc.parse_bcc_conditions_html ⟨none, bolds⟩).sections = [] ∧
      (Bcc.parse_bcc_conditions_html ⟨none, bolds⟩).numberOfConditions = 0 ∧
      (Bcc.parse_bcc_conditions_html ⟨none, bolds⟩).applicationDetails = []) ∧
    (∀ rawLines : List String,
      (∀ l ∈ Logan.normalise_lines ((rawLines.map clean).filter (fun t => t ≠ "")),
        Logan.sectionLineM (clean l) = none ∧ Logan.condInlineM (clean l) = none ∧
        Logan.condNumOnlyM (clean l) = none ∧ Logan.applicantM (clean l) = none ∧
        Logan.applicationNumberM (clean l) = none ∧ Logan.typeDescM (clean l) = none ∧
        Logan.officerNameM (clean l) = none ∧ Logan.contactNumberM (clean l) = none ∧
        Logan.documentNumberM (clean l) = none ∧ Logan.streetAddressM (clean l) = none ∧
        Logan.realPropertyM (clean l) = none) →
      (Logan.parse_logan_conditions_pdf rawLines).sections = [] ∧
      (Logan.parse_logan_conditions_pdf rawLines).numberOfConditions = 0 ∧
      (Logan.parse_logan_conditions_pdf rawLines).applicationDetails
        = [("addressOfSite", ""), ("realPropertyDescriptionOfSite", ""),
           ("aspectsOfDevelopmentAndTypeOfApproval", ""), ("councilFileReference", ""),
           ("permitReferenceNumbers", ""), ("packageStatus", ""), ("packageGenerated", ""),
           ("applicant", ""), ("officerName", ""), ("contactNumber", ""),
           ("documentNumber", "")]) := by
  constructor
  · intro bolds h
    have hp := Bcc.bcc_parse_empty bolds h
    refine ⟨?_, ?_, rfl⟩
    · show (Bcc.parse_conditions bolds).1 = []
      rw [hp]
    · show (Bcc.parse_conditions bolds).2 = 0
      rw [hp]
  · intro rawLines h
    have hempty := Logan.logan_foldl_empty
      (Logan.normalise_lines ((rawLines.map clean).filter (fun t => t ≠ "")))
      (fun l hl2 => ⟨(h l hl2).1, (h l hl2).2.1, (h l hl2).2.2.1⟩)
      Logan.initSt ⟨rfl, rfl, rfl⟩
    have hsec : (Logan.parse_conditions
        (Logan.normalise_lines ((rawLines.map clean).filter (fun t => t ≠ "")))).1 = [] := by
      unfold Logan.parse_conditions
      dsimp only
      rw [hempty.1]
      rfl
    refine ⟨?_, ?_, ?_⟩
    · show Logan.buildSections _ (Logan.parse_conditions
        (Logan.normalise_lines ((rawLines.map clean).filter (fun t => t ≠ "")))).1 = []
      rw [hsec]
      rfl
    · show count_conditions (Logan.buildSections _ (Logan.parse_conditions
        (Logan.normalise_lines ((rawLines.map clean).filter (fun t => t ≠ "")))).1) = 0
      rw [hsec]
      rfl
    · show Logan.extract_logan_application_details
        (Logan.normalise_lines ((rawLines.map clean).filter (fun t => t ≠ ""))) = _
      unfold Logan.extract_logan_application_details
      dsimp only
      rw [Logan.find_value_none _ Logan.applicantM 120 (fun l hl2 => (h l hl2).2.2.2.1)]
      rw [Logan.find_value_none _ Logan.applicationNumberM 120
        (fun l hl2 => (h l hl2).2.2.2.2.1)]
      rw [Logan.find_value_none _ Logan.typeDescM 120
        (fun l hl2 => (h l hl2).2.2.2.2.2.1)]
      rw [Logan.find_value_none _ Logan.officerNameM 120
        (fun l hl2 => (h l hl2).2.2.2.2.2.2.1)]
      rw [Logan.find_value_none _ Logan.contactNumberM 120
        (fun l hl2 => (h l hl2).2.2.2.2.2.2.2.1)]
      rw [Logan.find_value_none _ Logan.documentNumberM 120
        (fun l hl2 => (h l hl2).2.2.2.2.2.2.2.2.1)]
      rw [Logan.find_value_none _ Logan.streetAddressM 120
        (fun l hl2 => (h l hl2).2.2.2.2.2.2.2.2.2.1)]
      rw [Logan.find_value_none _ Logan.realPropertyM 120
        (fun l hl2 => (h l hl2).2.2.2.2.2.2.2.2.2.2)]
      rw [show Logan.typeDescFix
          (Logan.normalise_lines ((rawLines.map clean).filter (fun t => t ≠ ""))) "" = ""
        from by
          unfold Logan.typeDescFix
          rw [if_neg (by decide)]]

/-- Witness for C9 at the empty document. -/
theorem claim_C9_witness :
    ((Bcc.parse_bcc_conditions_html ⟨none, []⟩).sections = [] ∧
      (Bcc.parse_bcc_conditions_html ⟨none, []⟩).numberOfConditions = 0 ∧
      (Bcc.parse_bcc_conditions_html ⟨none, []⟩).applicationDetails = []) ∧
    ((Logan.parse_logan_conditions_pdf []).sections = [] ∧
      (Logan.parse_logan_conditions_pdf []).numberOfConditions = 0 ∧
      (Logan.parse_logan_conditions_pdf []).applicationDetails
        = [("addressOfSite", ""), ("realPropertyDescriptionOfSite", ""),
           ("aspectsOfDevelopmentAndTypeOfApproval", ""), ("councilFileReference", ""),
           ("permitReferenceNumbers", ""), ("packageStatus", ""), ("packageGenerated", ""),
           ("applicant", ""), ("officerName", ""), ("contactNumber", ""),
           ("documentNumber", "")]) :=
  ⟨claim_C9.1 [] (by decide), claim_C9.2 [] (by decide)⟩

/-- Counterexample to C9 as stated for the BCC side: with the marker
absent the application details hold no header key at all, so the address
field is missing rather than an empty string. -/
theorem claim_C9_cx :
    dictGet (Bcc.parse_bcc_conditions_html ⟨none, []⟩).applicationDetails
      ("addressOfSite") = none := by
  rfl

/-- Claim C10, confirmed.  Every condition node the Logan adapter returns
carries a dotted number: a bare integer line is never recognized as a
condition. -/
theorem claim_C10 (rawLines : List String) (c : Cond)
    (hc : c ∈ Logan.sectionNodes (Logan.parse_logan_conditions_pdf rawLines).sections) :
    Logan.isDottedNumber c.number = true :=
  Logan.logan_nodes_dotted
    (Logan.normalise_lines ((rawLines.map clean).filter (fun t => t ≠ ""))) c hc

/-- Witness for C10 at a two-line document with one condition. -/
theorem claim_C10_witness :
    (Cond.mk "2.1" "" "Do the thing" "" "" "" "" none none []) ∈
        Logan.sectionNodes
          (Logan.parse_logan_conditions_pdf ["1. SEC A", "2.1. Do the thing"]).sections ∧
    Logan.isDottedNumber
        (Cond.mk "2.1" "" "Do the thing" "" "" "" "" none none []).number = true := by
  have hmem : (Cond.mk "2.1" "" "Do the thing" "" "" "" "" none none []) ∈
      Logan.sectionNodes
        (Logan.parse_logan_conditions_pdf ["1. SEC A", "2.1. Do the thing"]).sections := by
    exact List.mem_singleton.mpr rfl
  exact ⟨hmem, claim_C10 ["1. SEC A", "2.1. Do the thing"] _ hmem⟩


end PlanEase
